import Mathlib

/-!
Verification of the pagination / extraction core of the browser-use GTM agent.

The Python sources are shallowly embedded as executable Lean definitions:

* `UrlNorm`        — `SmartPaginationExtractor._normalize_url`
  (`browser_use/tools/smart_pagination.py`), together with the fragment of
  CPython's `urllib.parse.urlparse` that it invokes (scheme / netloc / path
  splitting, fragment, query and params stripping, removal of unsafe bytes).
* `SimpleTools`    — the candidate scoring and selection logic of
  `detect_pagination` (`browser_use/tools/simple_tools.py`).
* `SmartPagination`— the `extract_all_data` driver loop of
  `browser_use/tools/smart_pagination.py`, with the browser, the LLM and the
  content hash treated as oracles supplied per cycle.
* `Extraction`     — `CompanyExtractor.extract` and its helpers
  (`gtm_agent/gtm_agent/extraction.py`), with the JSON decoder of the
  standard library treated as an abstract parameter `loads`.
* `Orchestrator`   — the terminal-action continuation logic of
  `AgentOrchestrator` (`gtm_agent/gtm_agent/orchestrator.py`).

Strings are processed through their character lists so that every definition
evaluates by kernel reduction on concrete inputs.
-/

namespace PyStr

/-- Word characters of the regular expressions in the source, restricted to
ASCII: letters, digits and underscore. -/
def isWordChar (c : Char) : Bool := c.isAlphanum || c == '_'

/-- Characters accepted by Python `str.strip()` (ASCII fragment, matching
`Char.isWhitespace`). -/
def isSpace (c : Char) : Bool := c.isWhitespace

/-- `sub` occurs as a contiguous sublist of `cs` (Python `sub in cs`). -/
def containsList (cs sub : List Char) : Bool :=
  sub.isPrefixOf cs ||
    match cs with
    | [] => false
    | _ :: t => containsList t sub

/-- Python substring test `sub in s`. -/
def containsSub (s sub : String) : Bool := containsList s.data sub.data

/-- Python `str.lower()` (ASCII fragment). -/
def lowerStr (s : String) : String := String.mk (s.data.map Char.toLower)

/-- Python `str.strip()`. -/
def stripChars (cs : List Char) : List Char :=
  ((cs.dropWhile isSpace).reverse.dropWhile isSpace).reverse

/-- Python `str.strip()` on strings. -/
def pyStrip (s : String) : String := String.mk (stripChars s.data)

/-- Python `str.lower().strip()` as used on element texts. -/
def lowerStrip (s : String) : String := pyStrip (lowerStr s)

/-- Maximal run splitting used for `re.sub(r"\s+", " ", text).strip()`:
worker collecting the whitespace-separated words, carrying the current word
reversed. -/
def wordsGo : List Char → List Char → List (List Char)
  | [], acc => if acc.isEmpty then [] else [acc.reverse]
  | c :: rest, acc =>
    if isSpace c then
      if acc.isEmpty then wordsGo rest [] else acc.reverse :: wordsGo rest []
    else wordsGo rest (c :: acc)

/-- The whitespace-separated words of a character list. -/
def wordsOf (cs : List Char) : List (List Char) := wordsGo cs []

/-- Interleave a separator between character-list words. -/
def joinWith (sep : List Char) : List (List Char) → List Char
  | [] => []
  | [w] => w
  | w :: ws => w ++ sep ++ joinWith sep ws

end PyStr

namespace UrlNorm

/-!
The fragment of CPython `urllib.parse.urlparse` exercised by
`SmartPaginationExtractor._normalize_url`, which returns
`f"{parsed.scheme}://{parsed.netloc}{parsed.path}"`.
-/

/-- `scheme_chars` of `urllib.parse`: ASCII letters, digits, `+`, `-`, `.`. -/
def isSchemeChar (c : Char) : Bool :=
  c.isAlpha || c.isDigit || c == '+' || c == '-' || c == '.'

/-- `_UNSAFE_URL_BYTES_TO_REMOVE`: tab, carriage return and newline are
removed from the URL before parsing. -/
def isSafeUrlChar (c : Char) : Bool := !(c == '\t' || c == '\r' || c == '\n')

/-- Remove unsafe bytes, as `urlsplit` does first. -/
def removeUnsafe (cs : List Char) : List Char := cs.filter isSafeUrlChar

/-- Split a character list at the first colon: `some (before, after)`,
or `none` when the list has no colon. -/
def splitColon : List Char → Option (List Char × List Char)
  | [] => none
  | c :: rest =>
    if c = ':' then some ([], rest)
    else (splitColon rest).map (fun p => (c :: p.1, p.2))

/-- The scheme validity test of `urlsplit`: the part before the colon is
nonempty, starts with an ASCII letter, and consists of scheme characters. -/
def validScheme (pre : List Char) : Bool :=
  match pre with
  | [] => false
  | c :: _ => c.isAlpha && pre.all isSchemeChar

/-- Scheme extraction of `urlsplit`: on success the scheme is lowercased and
removed together with the colon; otherwise the input is left whole. -/
def parseScheme (cs : List Char) : List Char × List Char :=
  match splitColon cs with
  | some (pre, post) =>
    if validScheme pre then (pre.map Char.toLower, post) else ([], cs)
  | none => ([], cs)

/-- A character that ends the netloc in `_splitnetloc`. -/
def isNetlocDelim (c : Char) : Bool := c == '/' || c == '?' || c == '#'

/-- The `url[:2] == '//'` test of `urlsplit`. -/
def startsSlashSlash : List Char → Bool
  | '/' :: '/' :: _ => true
  | _ => false

/-- Netloc extraction of `urlsplit`: only when the remainder starts with
`//`; the netloc runs from position 2 to the next `/`, `?` or `#`. -/
def parseNetloc (cs : List Char) : List Char × List Char :=
  if startsSlashSlash cs then
    ((cs.drop 2).takeWhile (fun c => !isNetlocDelim c),
     (cs.drop 2).dropWhile (fun c => !isNetlocDelim c))
  else ([], cs)

/-- Fragment and query stripping of `urlsplit`: the fragment is split off at
the first `#`, then the query at the first `?`. -/
def stripFragmentQuery (cs : List Char) : List Char :=
  (cs.takeWhile (fun c => c != '#')).takeWhile (fun c => c != '?')

/-- Params stripping of `urlparse._splitparams`: the part of the last path
segment from the first `;` on is removed. -/
def dropParams (cs : List Char) : List Char :=
  let rseg := cs.reverse.takeWhile (fun c => c != '/')
  let rpre := cs.reverse.dropWhile (fun c => c != '/')
  rpre.reverse ++ rseg.reverse.takeWhile (fun c => c != ';')

/-- The `(scheme, netloc, path)` triple of `urllib.parse.urlparse` for the
components read by `_normalize_url`. -/
def urlparseSNP (u : String) : List Char × List Char × List Char :=
  let cs := removeUnsafe u.data
  let sp := parseScheme cs
  let np := parseNetloc sp.2
  (sp.1, np.1, dropParams (stripFragmentQuery np.2))

/-- `SmartPaginationExtractor._normalize_url`:
`f"{parsed.scheme}://{parsed.netloc}{parsed.path}"`. -/
def normalize_url (u : String) : String :=
  let snp := urlparseSNP u
  String.mk (snp.1 ++ [':', '/', '/'] ++ snp.2.1 ++ snp.2.2)

/-! Character-level facts about `Char.toLower` and the scheme alphabet. -/

theorem toLower_of_bounds {c : Char} (h : c.toNat ≥ 65 ∧ c.toNat ≤ 90) :
    Char.toLower c = Char.ofNat (c.toNat + 32) := by
  show (if c.toNat ≥ 65 ∧ c.toNat ≤ 90 then Char.ofNat (c.toNat + 32) else c) =
    Char.ofNat (c.toNat + 32)
  exact if_pos h

theorem toLower_of_not_bounds {c : Char} (h : ¬(c.toNat ≥ 65 ∧ c.toNat ≤ 90)) :
    Char.toLower c = c := by
  show (if c.toNat ≥ 65 ∧ c.toNat ≤ 90 then Char.ofNat (c.toNat + 32) else c) = c
  exact if_neg h

theorem toLower_toLower (c : Char) :
    Char.toLower (Char.toLower c) = Char.toLower c := by
  by_cases h : c.toNat ≥ 65 ∧ c.toNat ≤ 90
  · rw [toLower_of_bounds h]
    obtain ⟨h1, h2⟩ := h
    generalize c.toNat = n at h1 h2
    interval_cases n <;> decide
  · rw [toLower_of_not_bounds h]; exact toLower_of_not_bounds h

theorem isAlpha_toLower {c : Char} (h : c.isAlpha = true) :
    (Char.toLower c).isAlpha = true := by
  by_cases hb : c.toNat ≥ 65 ∧ c.toNat ≤ 90
  · rw [toLower_of_bounds hb]
    obtain ⟨h1, h2⟩ := hb
    generalize c.toNat = n at h1 h2
    interval_cases n <;> decide
  · rwa [toLower_of_not_bounds hb]

theorem isSchemeChar_toLower {c : Char} (h : isSchemeChar c = true) :
    isSchemeChar (Char.toLower c) = true := by
  by_cases hb : c.toNat ≥ 65 ∧ c.toNat ≤ 90
  · rw [toLower_of_bounds hb]
    obtain ⟨h1, h2⟩ := hb
    generalize c.toNat = n at h1 h2
    interval_cases n <;> decide
  · rwa [toLower_of_not_bounds hb]

theorem isSchemeChar_ne_colon {c : Char} (h : isSchemeChar c = true) : c ≠ ':' := by
  intro hc; subst hc; simp [isSchemeChar] at h

theorem isSchemeChar_safe {c : Char} (h : isSchemeChar c = true) :
    isSafeUrlChar c = true := by
  rcases hc : c == '\t' with _ | _
  · rcases hr : c == '\r' with _ | _
    · rcases hn : c == '\n' with _ | _
      · simp [isSafeUrlChar, hc, hr, hn]
      · rw [beq_iff_eq] at hn; subst hn; simp [isSchemeChar] at h
    · rw [beq_iff_eq] at hr; subst hr; simp [isSchemeChar] at h
  · rw [beq_iff_eq] at hc; subst hc; simp [isSchemeChar] at h

/-! List helpers for the parser analysis. -/

theorem takeWhile_eq_self_of_all {p : Char → Bool} {l : List Char}
    (h : ∀ x ∈ l, p x = true) : l.takeWhile p = l :=
  List.takeWhile_eq_self_iff.mpr h

theorem takeWhile_append_stop {p : Char → Bool} {xs : List Char} (ys : List Char)
    (h : ∃ x ∈ xs, p x = false) : (xs ++ ys).takeWhile p = xs.takeWhile p := by
  induction xs with
  | nil => obtain ⟨x, hx, -⟩ := h; exact absurd hx (List.not_mem_nil x)
  | cons a as ih =>
    rcases ha : p a with _ | _
    · simp [List.takeWhile_cons, ha]
    · obtain ⟨x, hx, hpx⟩ := h
      rcases List.mem_cons.mp hx with rfl | hxs
      · exact absurd ha (by simp [hpx])
      · simp [List.takeWhile_cons, ha, ih ⟨x, hxs, hpx⟩]

theorem splitColon_append {a : List Char} (b : List Char) (h : ':' ∉ a) :
    splitColon (a ++ ':' :: b) = some (a, b) := by
  induction a with
  | nil => simp [splitColon]
  | cons c cs ih =>
    have hc : ¬(c = ':') := fun hcc => h (hcc ▸ List.mem_cons_self c cs)
    have hcs : ':' ∉ cs := fun hm => h (List.mem_cons_of_mem c hm)
    simp [splitColon, hc, ih hcs]

theorem splitColon_eq_some : ∀ {cs pre post : List Char},
    splitColon cs = some (pre, post) → cs = pre ++ ':' :: post ∧ ':' ∉ pre := by
  intro cs
  induction cs with
  | nil => intro pre post h; simp [splitColon] at h
  | cons c rest ih =>
    intro pre post h
    by_cases hc : c = ':'
    · subst hc
      simp only [splitColon, if_pos rfl, Option.some.injEq, Prod.mk.injEq] at h
      obtain ⟨rfl, rfl⟩ := h
      simp
    · simp only [splitColon, if_neg hc] at h
      cases hsp : splitColon rest with
      | none => rw [hsp] at h; simp at h
      | some p =>
        rw [hsp] at h
        simp only [Option.map_some', Option.some.injEq, Prod.mk.injEq] at h
        obtain ⟨h1, h2⟩ := h
        subst h1; subst h2
        obtain ⟨he, hn⟩ := ih (by rw [hsp])
        constructor
        · simp [he]
        · intro hm
          rcases List.mem_cons.mp hm with h1 | h1
          · exact hc h1.symm
          · exact hn h1

theorem validScheme_map_toLower {pre : List Char} (h : validScheme pre = true) :
    validScheme (pre.map Char.toLower) = true := by
  cases pre with
  | nil => simp [validScheme] at h
  | cons c cs =>
    simp only [validScheme, Bool.and_eq_true, List.all_eq_true] at h
    obtain ⟨ha, hall⟩ := h
    simp only [List.map_cons, validScheme, Bool.and_eq_true, List.all_eq_true]
    constructor
    · exact isAlpha_toLower ha
    · intro x hx
      simp only [← List.map_cons] at hx
      obtain ⟨y, hy, rfl⟩ := List.mem_map.mp hx
      exact isSchemeChar_toLower (hall y hy)

theorem map_toLower_idem (l : List Char) :
    (l.map Char.toLower).map Char.toLower = l.map Char.toLower := by
  rw [List.map_map]
  exact List.map_congr_left (fun a _ => toLower_toLower a)

theorem colon_not_mem_of_validScheme {pre : List Char} (h : validScheme pre = true) :
    ':' ∉ pre.map Char.toLower := by
  intro hm
  obtain ⟨y, hy, hye⟩ := List.mem_map.mp hm
  have hsch : isSchemeChar y = true := by
    cases pre with
    | nil => simp [validScheme] at h
    | cons c cs =>
      simp only [validScheme, Bool.and_eq_true, List.all_eq_true] at h
      exact h.2 y hy
  exact isSchemeChar_ne_colon (isSchemeChar_toLower hsch) hye

theorem stripFQ_subset {l : List Char} : stripFragmentQuery l ⊆ l :=
  fun _ hx =>
    (List.takeWhile_sublist _).subset ((List.takeWhile_sublist _).subset hx)

theorem mem_stripFQ {x : Char} {l : List Char} (hx : x ∈ stripFragmentQuery l) :
    (x != '#') = true ∧ (x != '?') = true := by
  unfold stripFragmentQuery at hx
  have h1 := List.mem_takeWhile_imp hx
  have h2 := (List.takeWhile_sublist (fun c => c != '?')).subset hx
  have h3 := List.mem_takeWhile_imp h2
  exact ⟨h3, h1⟩

theorem stripFQ_eq_self {l : List Char}
    (h : ∀ x ∈ l, (x != '#') = true ∧ (x != '?') = true) :
    stripFragmentQuery l = l := by
  unfold stripFragmentQuery
  rw [takeWhile_eq_self_of_all (fun x hx => (h x hx).1)]
  exact takeWhile_eq_self_of_all (fun x hx => (h x hx).2)

theorem dropParams_nil : dropParams [] = [] := rfl

theorem dropParams_subset {q : List Char} : dropParams q ⊆ q := by
  intro x hx
  unfold dropParams at hx
  rcases List.mem_append.mp hx with h1 | h1
  · have : x ∈ q.reverse.dropWhile (fun c => c != '/') := List.mem_reverse.mp h1
    exact List.mem_reverse.mp ((List.dropWhile_sublist _).subset this)
  · have h2 : x ∈ (q.reverse.takeWhile (fun c => c != '/')).reverse :=
      (List.takeWhile_sublist _).subset h1
    have h3 : x ∈ q.reverse.takeWhile (fun c => c != '/') := List.mem_reverse.mp h2
    exact List.mem_reverse.mp ((List.takeWhile_sublist _).subset h3)

theorem dropParams_eq_self {q : List Char}
    (h : ∀ c ∈ q.reverse.takeWhile (fun d => d != '/'), (c != ';') = true) :
    dropParams q = q := by
  show (q.reverse.dropWhile (fun c => c != '/')).reverse ++
    (q.reverse.takeWhile (fun c => c != '/')).reverse.takeWhile (fun c => c != ';') = q
  rw [takeWhile_eq_self_of_all (fun x hx => h x (List.mem_reverse.mp hx))]
  rw [← List.reverse_append, List.takeWhile_append_dropWhile, List.reverse_reverse]

theorem dropParams_semifree (q : List Char) :
    ∀ c ∈ (dropParams q).reverse.takeWhile (fun d => d != '/'),
      (c != ';') = true := by
  intro c hc
  have hcc : c ∈ (((q.reverse.dropWhile (fun d => d != '/')).reverse ++
      (q.reverse.takeWhile (fun d => d != '/')).reverse.takeWhile
        (fun d => d != ';')).reverse).takeWhile (fun d => d != '/') := hc
  rw [List.reverse_append, List.reverse_reverse] at hcc
  have hBfree : ∀ x ∈ ((q.reverse.takeWhile (fun d => d != '/')).reverse.takeWhile
      (fun d => d != ';')).reverse, (x != '/') = true := by
    intro x hx
    have h1 := List.mem_reverse.mp hx
    have h2 := (List.takeWhile_sublist (fun d => d != ';')).subset h1
    have h3 := List.mem_reverse.mp h2
    have h4 := List.mem_takeWhile_imp h3
    exact h4
  rcases hrp : q.reverse.dropWhile (fun d => d != '/') with _ | ⟨r, rt⟩
  · rw [hrp] at hcc
    simp only [List.reverse_nil, List.append_nil] at hcc
    have h1 := (List.takeWhile_sublist (fun d => d != '/')).subset hcc
    have h2 := List.mem_reverse.mp h1
    have h3 := List.mem_takeWhile_imp h2
    exact h3
  · have hr : r = '/' := by
      have h0 := List.head?_dropWhile_not (fun d => d != '/') q.reverse
      rw [hrp] at h0
      simpa using h0
    subst hr
    rw [hrp] at hcc
    rw [List.takeWhile_append_of_pos hBfree] at hcc
    have hsl : (('/' :: rt).takeWhile (fun d => d != '/')) = [] := by
      simp [List.takeWhile_cons]
    rw [hsl, List.append_nil] at hcc
    have h1 := List.mem_reverse.mp hcc
    have h2 := List.mem_takeWhile_imp h1
    exact h2

theorem parseNetloc_fst_subset {l : List Char} : (parseNetloc l).1 ⊆ l := by
  unfold parseNetloc
  by_cases h : startsSlashSlash l = true
  · rw [if_pos h]
    intro x hx
    have h1 := (List.takeWhile_sublist (fun c => !isNetlocDelim c)).subset hx
    exact (List.drop_subset 2 l) h1
  · rw [if_neg h]
    intro x hx
    simp at hx

theorem parseNetloc_snd_subset {l : List Char} : (parseNetloc l).2 ⊆ l := by
  unfold parseNetloc
  by_cases h : startsSlashSlash l = true
  · rw [if_pos h]
    intro x hx
    have h1 := (List.dropWhile_sublist (fun c => !isNetlocDelim c)).subset hx
    exact (List.drop_subset 2 l) h1
  · rw [if_neg h]
    exact fun x hx => hx

theorem validScheme_all {pre : List Char} (h : validScheme pre = true) :
    ∀ y ∈ pre, isSchemeChar y = true := by
  cases pre with
  | nil => simp [validScheme] at h
  | cons c cs =>
    simp only [validScheme, Bool.and_eq_true, List.all_eq_true] at h
    exact h.2

theorem parseNetloc_fst_nodelim {l : List Char} :
    ∀ x ∈ (parseNetloc l).1, (!isNetlocDelim x) = true := by
  unfold parseNetloc
  by_cases h : startsSlashSlash l = true
  · rw [if_pos h]
    intro x hx
    have hx2 : x ∈ (l.drop 2).takeWhile (fun c => !isNetlocDelim c) := hx
    have h1 := List.mem_takeWhile_imp hx2
    exact h1
  · rw [if_neg h]
    intro x hx
    simp at hx

/-- Reparsing the rendered `scheme://netloc+path` string: the core step of the
idempotence argument, carried out on the component lists produced by a first
parse with a nonempty scheme. -/
theorem normalize_reparse (s n pth : List Char)
    (hs_valid : validScheme s = true)
    (hs_low : s.map Char.toLower = s)
    (hs_colon : ':' ∉ s)
    (hsafe : ∀ x ∈ (((s ++ [':', '/', '/']) ++ n) ++ pth),
      isSafeUrlChar x = true)
    (hn_pos : ∀ x ∈ n, (!isNetlocDelim x) = true)
    (hp_fq : ∀ x ∈ pth, (x != '#') = true ∧ (x != '?') = true)
    (hp_semi : ∀ y ∈ pth.reverse.takeWhile (fun d => d != '/'), (y != ';') = true) :
    normalize_url (String.mk (((s ++ [':', '/', '/']) ++ n) ++ pth)) =
      String.mk (((s ++ [':', '/', '/']) ++ n) ++ pth) := by
  have hdata : (String.mk (((s ++ [':', '/', '/']) ++ n) ++ pth)).data =
      ((s ++ [':', '/', '/']) ++ n) ++ pth := rfl
  have hshape : (((s ++ [':', '/', '/']) ++ n) ++ pth) =
      s ++ ':' :: ('/' :: '/' :: (n ++ pth)) := by
    simp [List.append_assoc]
  have hclean : removeUnsafe (((s ++ [':', '/', '/']) ++ n) ++ pth) =
      ((s ++ [':', '/', '/']) ++ n) ++ pth :=
    List.filter_eq_self.mpr hsafe
  have hsc2 : splitColon (removeUnsafe (((s ++ [':', '/', '/']) ++ n) ++ pth)) =
      some (s, '/' :: '/' :: (n ++ pth)) := by
    rw [hclean, hshape]
    exact splitColon_append _ hs_colon
  have hps2 : parseScheme (removeUnsafe (((s ++ [':', '/', '/']) ++ n) ++ pth)) =
      (s, '/' :: '/' :: (n ++ pth)) := by
    unfold parseScheme
    rw [hsc2]
    simp [hs_valid, hs_low]
  have hpn2 : parseNetloc ('/' :: '/' :: (n ++ pth)) =
      ((n ++ pth).takeWhile (fun c => !isNetlocDelim c),
       (n ++ pth).dropWhile (fun c => !isNetlocDelim c)) := rfl
  have htk : (n ++ pth).takeWhile (fun c => !isNetlocDelim c) =
      n ++ pth.takeWhile (fun c => !isNetlocDelim c) :=
    List.takeWhile_append_of_pos hn_pos
  have hdr : (n ++ pth).dropWhile (fun c => !isNetlocDelim c) =
      pth.dropWhile (fun c => !isNetlocDelim c) :=
    List.dropWhile_append_of_pos hn_pos
  have hsnp2 : urlparseSNP (String.mk (((s ++ [':', '/', '/']) ++ n) ++ pth)) =
      (s, n ++ pth.takeWhile (fun c => !isNetlocDelim c),
        dropParams (stripFragmentQuery
          (pth.dropWhile (fun c => !isNetlocDelim c)))) := by
    simp only [urlparseSNP]
    rw [hps2]
    simp only [hpn2, htk, hdr]
  cases hr2 : pth.dropWhile (fun c => !isNetlocDelim c) with
  | nil =>
    have htkp : pth.takeWhile (fun c => !isNetlocDelim c) = pth := by
      have h1 := List.takeWhile_append_dropWhile
        (p := fun c => !isNetlocDelim c) (l := pth)
      rw [hr2, List.append_nil] at h1
      exact h1
    simp only [normalize_url]
    rw [hsnp2, hr2, htkp]
    have hz : dropParams (stripFragmentQuery []) = ([] : List Char) := rfl
    rw [hz]
    apply congrArg String.mk
    simp [List.append_assoc]
  | cons c t =>
    have hsub_r2 : ∀ x ∈ pth.dropWhile (fun c => !isNetlocDelim c), x ∈ pth :=
      fun x hx => (List.dropWhile_sublist _).subset hx
    have hstrip : stripFragmentQuery (c :: t) = c :: t := by
      apply stripFQ_eq_self
      intro x hx
      exact hp_fq x (hsub_r2 x (hr2 ▸ hx))
    have hcdel : isNetlocDelim c = true := by
      have h0 := List.head?_dropWhile_not (fun c => !isNetlocDelim c) pth
      rw [hr2] at h0
      simpa using h0
    have hcmem : c ∈ pth := hsub_r2 c (by rw [hr2]; exact List.mem_cons_self c t)
    have hcq := hp_fq c hcmem
    have hq1 : c ≠ '?' := by simpa using hcq.2
    have hq2 : c ≠ '#' := by simpa using hcq.1
    have hcslash : c = '/' := by
      simp only [isNetlocDelim, Bool.or_eq_true, beq_iff_eq] at hcdel
      rcases hcdel with (h | h) | h
      · exact h
      · exact absurd h hq1
      · exact absurd h hq2
    subst hcslash
    have hrev : pth.reverse = ('/' :: t).reverse ++
        (pth.takeWhile (fun c => !isNetlocDelim c)).reverse := by
      conv_lhs => rw [← List.takeWhile_append_dropWhile
        (p := fun c => !isNetlocDelim c) (l := pth), hr2]
      rw [List.reverse_append]
    have htkrev : pth.reverse.takeWhile (fun d => d != '/') =
        ('/' :: t).reverse.takeWhile (fun d => d != '/') := by
      rw [hrev]
      exact takeWhile_append_stop _
        ⟨'/', List.mem_reverse.mpr (List.mem_cons_self _ _), by simp⟩
    have hdp : dropParams ('/' :: t) = '/' :: t := by
      apply dropParams_eq_self
      intro y hy
      apply hp_semi
      rw [htkrev]
      exact hy
    simp only [normalize_url]
    rw [hsnp2, hr2, hstrip, hdp]
    apply congrArg String.mk
    conv_rhs => rw [← List.takeWhile_append_dropWhile
      (p := fun c => !isNetlocDelim c) (l := pth), hr2]
    simp [List.append_assoc]

/-- Claim C9, amended: `_normalize_url` is idempotent on every URL string
whose parse extracts a nonempty scheme (in particular on all absolute
`http://` and `https://` URLs).  For scheme-less strings a second application
prepends another `://`, so the unrestricted claim fails
(see `normalize_url_idem_cex`). -/
theorem normalize_url_idem (u : String) (h : (urlparseSNP u).1 ≠ []) :
    normalize_url (normalize_url u) = normalize_url u := by
  cases hsc : splitColon (removeUnsafe u.data) with
  | none =>
    exfalso; apply h
    show (parseScheme (removeUnsafe u.data)).1 = []
    unfold parseScheme; rw [hsc]
  | some pp =>
    obtain ⟨pre, post⟩ := pp
    by_cases hv : validScheme pre = true
    · have hps : parseScheme (removeUnsafe u.data) = (pre.map Char.toLower, post) := by
        unfold parseScheme; rw [hsc]; simp [hv]
      obtain ⟨hcs_eq, hpre_colon⟩ := splitColon_eq_some hsc
      have hurl : urlparseSNP u = (pre.map Char.toLower, (parseNetloc post).1,
          dropParams (stripFragmentQuery (parseNetloc post).2)) := by
        simp only [urlparseSNP]
        rw [hps]
      have hnu : normalize_url u = String.mk (((pre.map Char.toLower ++
          [':', '/', '/']) ++ (parseNetloc post).1) ++
          dropParams (stripFragmentQuery (parseNetloc post).2)) := by
        simp only [normalize_url]
        rw [hurl]
      have hmem_post_cs : ∀ x ∈ post, isSafeUrlChar x = true := by
        intro x hx
        have hx2 : x ∈ removeUnsafe u.data := by
          rw [hcs_eq]
          exact List.mem_append_right _ (List.mem_cons_of_mem _ hx)
        exact List.of_mem_filter hx2
      have hmem_pth : ∀ x ∈ dropParams (stripFragmentQuery (parseNetloc post).2),
          x ∈ post := by
        intro x hx
        exact parseNetloc_snd_subset (stripFQ_subset (dropParams_subset hx))
      rw [hnu]
      apply normalize_reparse
      · exact validScheme_map_toLower hv
      · exact map_toLower_idem pre
      · exact colon_not_mem_of_validScheme hv
      · intro x hx
        rcases List.mem_append.mp hx with hx1 | hxp
        · rcases List.mem_append.mp hx1 with hx2 | hxn
          · rcases List.mem_append.mp hx2 with hxs | hxc
            · obtain ⟨y, hy, rfl⟩ := List.mem_map.mp hxs
              exact isSchemeChar_safe (isSchemeChar_toLower (validScheme_all hv y hy))
            · have : x = ':' ∨ x = '/' ∨ x = '/' := by simpa using hxc
              rcases this with rfl | rfl | rfl <;> decide
          · exact hmem_post_cs x (parseNetloc_fst_subset hxn)
        · exact hmem_post_cs x (hmem_pth x hxp)
      · exact parseNetloc_fst_nodelim
      · intro x hx
        exact mem_stripFQ (dropParams_subset hx)
      · exact dropParams_semifree _
    · exfalso; apply h
      show (parseScheme (removeUnsafe u.data)).1 = []
      unfold parseScheme; rw [hsc]; simp [hv]

/-- Claim C9, counterexample: on the scheme-less string `example.com` the
normalizer is not idempotent — one application yields `://example.com`, a
second yields `://://example.com`. -/
theorem normalize_url_idem_cex :
    normalize_url (normalize_url "example.com") ≠ normalize_url "example.com" := by
  decide

/-- Witness for `normalize_url_idem` at the concrete URL
`http://example.com/a`. -/
theorem normalize_url_idem_witness :
    (urlparseSNP "http://example.com/a").1 ≠ [] ∧
      normalize_url (normalize_url "http://example.com/a") =
        normalize_url "http://example.com/a" :=
  ⟨by decide, normalize_url_idem "http://example.com/a" (by decide)⟩

end UrlNorm

namespace SimpleTools

/-!
The scoring and selection logic of `detect_pagination` in
`browser_use/tools/simple_tools.py` (lines 342-465).  A page element is
modelled by the fields the function reads; the element list stands for the
selector map in its dictionary iteration order.
-/

/-- The element fields read by `detect_pagination`. `has_attrs` models the
`if not element.attributes: continue` guard; empty strings stand for missing
attributes (Python falsiness). -/
structure PageElement where
  node_name : String
  has_attrs : Bool := true
  text_content : String := ""
  title : String := ""
  ariaLabel : String := ""
  alt : String := ""
  value : String := ""
  classAttr : String := ""
  idAttr : String := ""
  href : String := ""
deriving DecidableEq

/-- The combined text of an element: lowered and stripped text content, the
attributes `title`, `aria-label`, `alt`, `value`, `class`, `id` (lowered and
stripped) and the lowered href, joined with single spaces. -/
def combinedText (e : PageElement) : String :=
  let pieces : List String :=
    (if e.text_content ≠ "" then [PyStr.lowerStrip e.text_content] else []) ++
    (if e.title ≠ "" then [PyStr.lowerStrip e.title] else []) ++
    (if e.ariaLabel ≠ "" then [PyStr.lowerStrip e.ariaLabel] else []) ++
    (if e.alt ≠ "" then [PyStr.lowerStrip e.alt] else []) ++
    (if e.value ≠ "" then [PyStr.lowerStrip e.value] else []) ++
    (if e.classAttr ≠ "" then [PyStr.lowerStrip e.classAttr] else []) ++
    (if e.idAttr ≠ "" then [PyStr.lowerStrip e.idAttr] else []) ++
    (if e.href ≠ "" then [PyStr.lowerStr e.href] else [])
  String.mk (PyStr.joinWith [' '] (pieces.map String.data))

/-- `re.search(r"\b\d{1,3}\b", text)`: worker scanning for a maximal digit
run of length 1-3 flanked by word boundaries; the flag records whether the
previous character was a word character. -/
def hasShortNumAux : Bool → List Char → Bool
  | _, [] => false
  | prevW, c :: rest =>
    (if c.isDigit && !prevW then
      decide (((c :: rest).takeWhile Char.isDigit).length ≤ 3) &&
        (match (c :: rest).dropWhile Char.isDigit with
         | [] => true
         | d :: _ => !PyStr.isWordChar d)
     else false) ||
    hasShortNumAux (PyStr.isWordChar c) rest

/-- `re.search(r"\b\d{1,3}\b", combined_text)` as a Boolean. -/
def hasShortStandaloneNumber (s : String) : Bool := hasShortNumAux false s.data

def next_patterns : List String :=
  ["next", ">", "→", "forward", "continue", "mehr", "siguiente"]

def pagination_classes : List String := ["pag", "next", "page", "nav", "btn", "link"]

def interactive_words : List String := ["click", "button", "link"]

def clickable_tags : List String := ["a", "button", "span", "div"]

/-- Any of the patterns occurs in the combined text. -/
def anyContained (combined : String) (pats : List String) : Bool :=
  pats.any (fun p => PyStr.containsSub combined p)

/-- `element.node_name.lower() in ['a', 'button', 'span', 'div']`. -/
def clickableTag (node : String) : Bool := clickable_tags.contains (PyStr.lowerStr node)

/-- `'page=' in href or '/page/' in href or 'p=' in href`. -/
def hrefPagePattern (href : String) : Bool :=
  PyStr.containsSub href "page=" || PyStr.containsSub href "/page/" ||
    PyStr.containsSub href "p="

/-- The sequential score / element-type accumulation of `detect_pagination`
(lines 391-425), translated rule by rule in source order. -/
def scoreAndType (node combined href : String) : Nat × String :=
  if clickableTag node then
    let st1 : Nat × String :=
      if anyContained combined next_patterns then (3, "next_button")
      else (0, "unknown")
    let st2 : Nat × String :=
      if hasShortStandaloneNumber combined then (st1.1 + 2, "page_number") else st1
    let s3 : Nat :=
      if anyContained combined pagination_classes then st2.1 + 1 else st2.1
    let st4 : Nat × String :=
      if hrefPagePattern href then (s3 + 2, "page_link") else (s3, st2.2)
    let s5 : Nat :=
      if anyContained combined interactive_words then st4.1 + 1 else st4.1
    (s5, st4.2)
  else (0, "unknown")

/-- A scored pagination candidate as built by `detect_pagination`. -/
structure Candidate where
  index : Nat
  score : Nat
  ctype : String
  text : String
  node_name : String
  href : String
deriving DecidableEq

/-- `combined_text[:100]`. -/
def take100 (s : String) : String := String.mk (s.data.take 100)

/-- The candidate list built by the scan loop, in selector-map order; only
elements with attributes and positive score are kept. -/
def buildCandidates : List (Nat × PageElement) → List Candidate
  | [] => []
  | (idx, e) :: rest =>
    if e.has_attrs then
      let st := scoreAndType e.node_name (combinedText e) e.href
      if st.1 > 0 then
        { index := idx, score := st.1, ctype := st.2,
          text := take100 (combinedText e), node_name := e.node_name,
          href := e.href } :: buildCandidates rest
      else buildCandidates rest
    else buildCandidates rest

/-- One step of the stable descending insertion sort: earlier elements win
ties, so the inserted (earlier) element passes only strictly larger scores. -/
def insertDesc (c : Candidate) : List Candidate → List Candidate
  | [] => [c]
  | d :: rest => if d.score > c.score then d :: insertDesc c rest else c :: d :: rest

/-- The stable descending sort performed by
`candidates.sort(key=lambda x: x['score'], reverse=True)`. -/
def sortDesc : List Candidate → List Candidate
  | [] => []
  | c :: rest => insertDesc c (sortDesc rest)

/-- `c['type'] == 'next_button' and c['score'] >= 3`. -/
def isNextButtonPick (c : Candidate) : Bool :=
  c.ctype == "next_button" && decide (c.score ≥ 3)

/-- `c['type'] in ['page_number', 'page_link'] and c['score'] >= 2`. -/
def isPageNumberPick (c : Candidate) : Bool :=
  (c.ctype == "page_number" || c.ctype == "page_link") && decide (c.score ≥ 2)

/-- `int(re.search(r"\d+", text).group())` for the first digit run, `none`
when the text has no digit. -/
def firstDigitRunNat : List Char → Option Nat
  | [] => none
  | c :: rest =>
    if c.isDigit then
      some (((c :: rest).takeWhile Char.isDigit).foldl
        (fun n d => n * 10 + (d.toNat - 48)) 0)
    else firstDigitRunNat rest

/-- The result fields of `detect_pagination`. -/
structure PaginationInfo where
  has_pagination : Bool
  next_button_index : Option Nat
  page_buttons : List Nat
  current_page : Nat
  pagination_type : String
  all_candidates : List Candidate
deriving DecidableEq

/-- `detect_pagination` (lines 342-465): build candidates, sort descending
by score, pick next buttons before page numbers. -/
def detect_pagination (elems : List (Nat × PageElement)) : PaginationInfo :=
  let candidates := buildCandidates elems
  let sorted := sortDesc candidates
  let next_buttons := sorted.filter isNextButtonPick
  let page_numbers := sorted.filter isPageNumberPick
  let current_page_candidates := page_numbers.filter
    (fun p => PyStr.containsSub p.text "current" || PyStr.containsSub p.text "active")
  { has_pagination := !next_buttons.isEmpty || !page_numbers.isEmpty
    next_button_index :=
      if !next_buttons.isEmpty then next_buttons.head?.map Candidate.index else none
    page_buttons :=
      if next_buttons.isEmpty && !page_numbers.isEmpty then
        (page_numbers.take 5).map Candidate.index
      else []
    current_page :=
      match current_page_candidates.head? with
      | some p => (firstDigitRunNat p.text.data).getD 1
      | none => 1
    pagination_type :=
      if !next_buttons.isEmpty then "next_button"
      else if !page_numbers.isEmpty then "page_numbers"
      else "none"
    all_candidates := sorted.take 10 }

end SimpleTools

namespace SimpleTools

/-- The number / URL-pattern rule read as the specification words it: one
single +2 disjunction for short standalone number OR page-pattern href, the
other rules as in the code. -/
def score_spec_single (node combined href : String) : Nat :=
  if clickableTag node then
    (if anyContained combined next_patterns then 3 else 0) +
    (if hasShortStandaloneNumber combined || hrefPagePattern href then 2 else 0) +
    (if anyContained combined pagination_classes then 1 else 0) +
    (if anyContained combined interactive_words then 1 else 0)
  else 0

/-- The additive reading of the code's scoring: five independent rules, the
digit rule and the href rule each contributing +2 on their own. -/
def score_rules_sum (node combined href : String) : Nat :=
  if clickableTag node then
    (if anyContained combined next_patterns then 3 else 0) +
    (if hasShortStandaloneNumber combined then 2 else 0) +
    (if anyContained combined pagination_classes then 1 else 0) +
    (if hrefPagePattern href then 2 else 0) +
    (if anyContained combined interactive_words then 1 else 0)
  else 0

/-- Claim C3, counterexample: for the anchor element with text `2` and href
`?page=2` both the short-number rule and the href-pattern rule fire, so the
code assigns score 5 (2 + 2 + 1 for the class rule), while the single
+2 disjunction of the claim would assign 3. -/
theorem score_single_disjunction_cex :
    (scoreAndType "a"
        (combinedText { node_name := "a", text_content := "2", href := "?page=2" })
        "?page=2").1 = 5 ∧
      score_spec_single "a"
        (combinedText { node_name := "a", text_content := "2", href := "?page=2" })
        "?page=2" = 3 := by
  decide

/-- Claim C3, amended: the number rule and the URL-pattern rule are two
independent +2 rules, not one disjunction — the score of every candidate
decomposes as the sum of the five rule contributions, so an element matching
both the short-number test and the href pattern gains 4 from them. -/
theorem score_decomposes (node combined href : String) :
    (scoreAndType node combined href).1 = score_rules_sum node combined href := by
  unfold scoreAndType score_rules_sum
  by_cases hck : clickableTag node = true
  · simp only [if_pos hck]
    by_cases h1 : anyContained combined next_patterns = true <;>
      by_cases h2 : hasShortStandaloneNumber combined = true <;>
        by_cases h3 : anyContained combined pagination_classes = true <;>
          by_cases h4 : hrefPagePattern href = true <;>
            by_cases h5 : anyContained combined interactive_words = true <;>
              simp [h1, h2, h3, h4, h5]
  · simp only [if_neg hck]

end SimpleTools

namespace SimpleTools

/-- Members of an insertion step. -/
theorem mem_insertDesc {x c : Candidate} : ∀ {s : List Candidate},
    x ∈ insertDesc c s → x = c ∨ x ∈ s := by
  intro s
  induction s with
  | nil => intro h; simpa [insertDesc] using h
  | cons d rest ih =>
    intro h
    unfold insertDesc at h
    by_cases hgt : d.score > c.score
    · rw [if_pos hgt] at h
      rcases List.mem_cons.mp h with rfl | h2
      · exact Or.inr (List.mem_cons_self _ _)
      · rcases ih h2 with h3 | h3
        · exact Or.inl h3
        · exact Or.inr (List.mem_cons_of_mem _ h3)
    · rw [if_neg hgt] at h
      rcases List.mem_cons.mp h with rfl | h2
      · exact Or.inl rfl
      · exact Or.inr h2

/-- Insertion preserves the descending sortedness invariant. -/
theorem insertDesc_sorted {c : Candidate} : ∀ {s : List Candidate},
    s.Pairwise (fun a b => b.score ≤ a.score) →
    (insertDesc c s).Pairwise (fun a b => b.score ≤ a.score) := by
  intro s
  induction s with
  | nil => intro _; simp [insertDesc]
  | cons d rest ih =>
    intro hs
    rw [List.pairwise_cons] at hs
    obtain ⟨hd, hrest⟩ := hs
    unfold insertDesc
    by_cases hgt : d.score > c.score
    · rw [if_pos hgt]
      rw [List.pairwise_cons]
      constructor
      · intro b hb
        rcases mem_insertDesc hb with rfl | h2
        · omega
        · exact hd b h2
      · exact ih hrest
    · rw [if_neg hgt]
      rw [List.pairwise_cons]
      constructor
      · intro b hb
        rcases List.mem_cons.mp hb with rfl | h2
        · omega
        · have := hd b h2; omega
      · rw [List.pairwise_cons]
        exact ⟨hd, hrest⟩

/-- The sort's output is descending in score. -/
theorem sortDesc_sorted : ∀ (l : List Candidate),
    (sortDesc l).Pairwise (fun a b => b.score ≤ a.score) := by
  intro l
  induction l with
  | nil => simp [sortDesc]
  | cons c rest ih => exact insertDesc_sorted ih

/-- The leftmost candidate with the maximal score among those satisfying
`p` (earlier elements win ties). -/
def leftmostMaxBy (p : Candidate → Bool) : List Candidate → Option Candidate
  | [] => none
  | c :: rest =>
    match leftmostMaxBy p rest with
    | none => if p c then some c else none
    | some d => if p c && decide (c.score ≥ d.score) then some c else some d

/-- What `find?` sees after inserting into a sorted list. -/
theorem find?_insertDesc (p : Candidate → Bool) (c : Candidate) :
    ∀ (s : List Candidate), s.Pairwise (fun a b => b.score ≤ a.score) →
    (insertDesc c s).find? p =
      match s.find? p with
      | none => if p c then some c else none
      | some d => if p c && decide (c.score ≥ d.score) then some c else some d := by
  intro s
  induction s with
  | nil =>
    intro _
    cases hpc : p c <;> simp [insertDesc, List.find?, hpc]
  | cons d rest ih =>
    intro hs
    rw [List.pairwise_cons] at hs
    obtain ⟨hd, hrest⟩ := hs
    unfold insertDesc
    by_cases hgt : d.score > c.score
    · rw [if_pos hgt]
      cases hpd : p d
      · rw [List.find?_cons_of_neg _ (by simp [hpd]),
          List.find?_cons_of_neg _ (by simp [hpd])]
        exact ih hrest
      · rw [List.find?_cons_of_pos _ hpd, List.find?_cons_of_pos _ hpd]
        have hscore : ¬ (c.score ≥ d.score) := by omega
        simp [hscore]
    · rw [if_neg hgt]
      cases hfd : (d :: rest).find? p with
      | none =>
        cases hpc : p c
        · rw [List.find?_cons_of_neg _ (by simp [hpc]), hfd]
          simp
        · rw [List.find?_cons_of_pos _ hpc]
          simp
      | some e =>
        have hge : c.score ≥ e.score := by
          have hmem := List.mem_of_find?_eq_some hfd
          rcases List.mem_cons.mp hmem with rfl | h2
          · omega
          · have := hd e h2; omega
        cases hpc : p c
        · rw [List.find?_cons_of_neg _ (by simp [hpc]), hfd]
          simp [hpc]
        · rw [List.find?_cons_of_pos _ hpc]
          simp [hpc, hge]

/-- On the stably sorted candidate list, the first candidate satisfying `p`
is the leftmost maximal-score one of the original order. -/
theorem find?_sortDesc (p : Candidate → Bool) : ∀ (l : List Candidate),
    (sortDesc l).find? p = leftmostMaxBy p l := by
  intro l
  induction l with
  | nil => rfl
  | cons c rest ih =>
    show (insertDesc c (sortDesc rest)).find? p = _
    rw [find?_insertDesc p c (sortDesc rest) (sortDesc_sorted rest), ih]
    rfl

/-- The `[0]` of a filtered list is `find?`. -/
theorem head_filter_eq_find? (p : Candidate → Bool) (f : Candidate → Nat) :
    ∀ (l : List Candidate),
    (if !(l.filter p).isEmpty then (l.filter p).head?.map f else none) =
      (l.find? p).map f := by
  intro l
  induction l with
  | nil => rfl
  | cons c rest ih =>
    cases hpc : p c
    · rw [List.filter_cons_of_neg (by simp [hpc]), List.find?_cons_of_neg _ (by simp [hpc])]
      exact ih
    · rw [List.filter_cons_of_pos (by simp [hpc]), List.find?_cons_of_pos _ hpc]
      simp

end SimpleTools

namespace SimpleTools

/-- Claim C8, amended: `detect_pagination` is a deterministic function of the
ordered element list, and its chosen next-button candidate is exactly the
first candidate, in presentation order, attaining the maximal score among
next-button candidates — the tie-breaking of the stable descending sort.
Reordering tied candidates can change the choice
(see `detect_order_invariance_cex`). -/
theorem detect_chosen_next_leftmost (elems : List (Nat × PageElement)) :
    (detect_pagination elems).next_button_index =
      (leftmostMaxBy isNextButtonPick (buildCandidates elems)).map Candidate.index := by
  show (if !((sortDesc (buildCandidates elems)).filter isNextButtonPick).isEmpty then
      ((sortDesc (buildCandidates elems)).filter isNextButtonPick).head?.map
        Candidate.index
    else none) = _
  rw [head_filter_eq_find?, find?_sortDesc]

/-- Claim C8, counterexample: two identical `next` anchors at indices 1 and 2
tie at score 4; presented as `[1, 2]` the detector picks index 1, presented
as `[2, 1]` it picks index 2, so the chosen candidate is not invariant under
reordering of the same element set. -/
theorem detect_order_invariance_cex :
    ¬ (∀ (l l' : List (Nat × PageElement)), l.Perm l' →
        (detect_pagination l).next_button_index =
          (detect_pagination l').next_button_index) := by
  intro hall
  have h := hall
    [(1, { node_name := "a", text_content := "next" }),
     (2, { node_name := "a", text_content := "next" })]
    [(2, { node_name := "a", text_content := "next" }),
     (1, { node_name := "a", text_content := "next" })]
    (List.Perm.swap
      ((2, { node_name := "a", text_content := "next" }) : Nat × PageElement)
      ((1, { node_name := "a", text_content := "next" }) : Nat × PageElement) [])
  exact absurd h (by decide)

end SimpleTools

namespace SmartPagination

/-!
The `extract_all_data` driver loop of `SmartPaginationExtractor`
(`browser_use/tools/smart_pagination.py`, lines 29-105).  The effectful calls
of one cycle are summarised by a `CycleInput` supplied by an environment
`env : Nat → CycleInput` indexed by the 1-based cycle number, and the MD5
content fingerprint is an abstract function `hashFn`.  The `try` block covers
three await points that can raise into the `except` branch, giving four cycle
shapes:

* `raiseEarly` — `get_current_page_url` (line 44) raises before any state is
  touched; the except branch increments the consecutive-failure counter.
* `raiseExtract url` — `_smart_page_extraction` (line 55) raises after the
  URL was recorded in `visited_urls`; same except branch.
* `raiseNav url content` — `_smart_pagination_navigation` (line 85) raises
  (its first await, `_scroll_to_position`, re-raises browser errors via
  `event_result(raise_if_any=True)`): the whole extraction block has already
  run, so the hash bookkeeping, the dedup append and the failure-counter
  reset of lines 57-83 all happen, and then the except branch bumps the
  counter and the loop retries the same page — an append immediately
  followed by a raise leaves the failure budget at 1 (`FailUpd.resetBump`),
  an empty extraction followed by a raise bumps it twice (`FailUpd.bumpTwo`).
* `ok url content nav` — the cycle completes: `content` is the combined page
  content (`""` for a falsy extraction), `nav` the result of
  `_smart_pagination_navigation`.

Because a `raiseNav` cycle can append fresh content (resetting the failure
budget) and then retry the same page forever, the while loop has no
termination measure; it is modelled as a step function `stepRun` on loop
configurations iterated by `runCycles` for a given number of cycles, with
`finished` results absorbing further iteration (`runCycles_finished`).
-/

/-- The outcome of one cycle's effectful calls (see the namespace header). -/
inductive CycleInput where
  | raiseEarly : CycleInput
  | raiseExtract (url : String) : CycleInput
  | raiseNav (url : String) (content : String) : CycleInput
  | ok (url : String) (content : String) (navSuccess : Bool) : CycleInput
deriving DecidableEq

/-- A dict appended to `extracted_data` (the fields the claims speak about). -/
structure PagEntry where
  page : Nat
  url : String
  content : String
deriving DecidableEq

/-- The mutable attributes of `SmartPaginationExtractor` used by the loop.
The Python sets are lists inserted at the head, always behind a membership
check. -/
structure PagState where
  visited_urls : List String
  extracted_data : List PagEntry
  content_hashes : List String
  consecutive_same_content : Nat
  last_content_hash : Option String
deriving DecidableEq

/-- `__init__`: all tracking state empty. -/
def initState : PagState :=
  { visited_urls := [], extracted_data := [], content_hashes := [],
    consecutive_same_content := 0, last_content_hash := none }

/-- How one cycle updates `consecutive_failures`: `resetBump` is an append
(reset to 0) followed by a navigation raise (+1), `bumpTwo` an empty
extraction (+1) followed by a navigation raise (+1). -/
inductive FailUpd where
  | reset : FailUpd
  | keep : FailUpd
  | bump : FailUpd
  | resetBump : FailUpd
  | bumpTwo : FailUpd
deriving DecidableEq

def applyFail : FailUpd → Nat → Nat
  | .reset, _ => 0
  | .keep, f => f
  | .bump, f => f + 1
  | .resetBump, _ => 1
  | .bumpTwo, f => f + 2

/-- Outcome of one cycle body: `halt` leaves the while loop, `retry` is the
except branch (failure counter updated, same page), `advance` passed
navigation (page counter incremented). -/
inductive StepRes where
  | halt (st : PagState)
  | retry (st : PagState) (f : FailUpd)
  | advance (st : PagState) (f : FailUpd)
deriving DecidableEq

/-- Lines 72-94 when navigation completes: the
`content_hash not in self.content_hashes` dedup, the append of the page data
(resetting the failure counter), then `_smart_pagination_navigation` deciding
between advancing and stopping. -/
def afterDedup (st : PagState) (hsh url content : String) (page : Nat)
    (nav : Bool) : StepRes :=
  if hsh ∈ st.content_hashes then
    if nav then .advance st .keep else .halt st
  else
    let st' := { st with
      content_hashes := hsh :: st.content_hashes
      extracted_data := st.extracted_data ++ [⟨page, url, content⟩] }
    if nav then .advance st' .reset else .halt st'

/-- Lines 72-85 when navigation raises: the same dedup/append, then the
except branch bumps the failure counter on top of the append's reset. -/
def afterDedupRaise (st : PagState) (hsh url content : String) (page : Nat) :
    StepRes :=
  if hsh ∈ st.content_hashes then .retry st .bump
  else
    .retry { st with
      content_hashes := hsh :: st.content_hashes
      extracted_data := st.extracted_data ++ [⟨page, url, content⟩] } .resetBump

/-- One iteration of the while body (lines 42-102): visited-URL check and
insertion, duplicate-content loop guard, dedup/append, then navigation — or
the except branch at whichever await raised. -/
def cycleStep (hashFn : String → String) (inp : CycleInput) (page : Nat)
    (st : PagState) : StepRes :=
  match inp with
  | .raiseEarly => .retry st .bump
  | .raiseExtract url =>
    let key := UrlNorm.normalize_url url
    if key ∈ st.visited_urls then .halt st
    else .retry { st with visited_urls := key :: st.visited_urls } .bump
  | .raiseNav url content =>
    let key := UrlNorm.normalize_url url
    if key ∈ st.visited_urls then .halt st
    else
      let st1 := { st with visited_urls := key :: st.visited_urls }
      if content = "" then .retry st1 .bumpTwo
      else
        let hsh := hashFn content
        if st1.last_content_hash = some hsh then
          if st1.consecutive_same_content + 1 ≥ 2 then
            .halt { st1 with
              consecutive_same_content := st1.consecutive_same_content + 1 }
          else
            afterDedupRaise { st1 with
              consecutive_same_content := st1.consecutive_same_content + 1 }
              hsh url content page
        else
          afterDedupRaise { st1 with
            consecutive_same_content := 0
            last_content_hash := some hsh } hsh url content page
  | .ok url content nav =>
    let key := UrlNorm.normalize_url url
    if key ∈ st.visited_urls then .halt st
    else
      let st1 := { st with visited_urls := key :: st.visited_urls }
      if content = "" then
        if nav then .advance st1 .bump else .halt st1
      else
        let hsh := hashFn content
        if st1.last_content_hash = some hsh then
          if st1.consecutive_same_content + 1 ≥ 2 then
            .halt { st1 with
              consecutive_same_content := st1.consecutive_same_content + 1 }
          else
            afterDedup { st1 with
              consecutive_same_content := st1.consecutive_same_content + 1 }
              hsh url content page nav
        else
          afterDedup { st1 with
            consecutive_same_content := 0
            last_content_hash := some hsh } hsh url content page nav

/-- A point of the run: still inside the while loop (with `k` the 1-based
number of the next cycle, the current page and failure counters, and the
state), or out of it (with the final state, the final `current_page` and the
number of cycles that ran). -/
inductive LoopRes where
  | running (k page fail : Nat) (st : PagState)
  | finished (st : PagState) (page k : Nat)
deriving DecidableEq

/-- One turn of the while loop (line 39, `max_consecutive_failures = 3`):
check the guard, run one cycle, update the counters. -/
def stepRun (env : Nat → CycleInput) (hashFn : String → String) (M : Nat) :
    LoopRes → LoopRes
  | .finished st p k => .finished st p k
  | .running k page fail st =>
    if page ≤ M ∧ fail < 3 then
      match cycleStep hashFn (env k) page st with
      | .halt st' => .finished st' page k
      | .retry st' f => .running (k + 1) page (applyFail f fail) st'
      | .advance st' f => .running (k + 1) (page + 1) (applyFail f fail) st'
    else .finished st page (k - 1)

/-- Iterate the loop for `n` turns (the loop itself has no fuel — `n` only
bounds how far the possibly diverging run is unfolded). -/
def runCycles (env : Nat → CycleInput) (hashFn : String → String) (M : Nat) :
    Nat → LoopRes → LoopRes
  | 0, r => r
  | n + 1, r => runCycles env hashFn M n (stepRun env hashFn M r)

/-- `extract_all_data`, unfolded for `n` cycles from the freshly initialised
state, starting at page 1 with no failures. -/
def extract_all_data (env : Nat → CycleInput) (hashFn : String → String)
    (max_pages n : Nat) : LoopRes :=
  runCycles env hashFn max_pages n (.running 1 1 0 initState)

/-- The extractor state at a point of the run. -/
def resPagState : LoopRes → PagState
  | .running _ _ _ st => st
  | .finished st _ _ => st

/-- `pages_processed` of the consolidated result: `current_page - 1`. -/
def pagesOf : LoopRes → Nat
  | .running _ page _ _ => page - 1
  | .finished _ page _ => page - 1

/-- The number of cycles that have completed. -/
def cyclesOf : LoopRes → Nat
  | .running k _ _ _ => k - 1
  | .finished _ _ k => k

/-- Whether the while loop has exited. -/
def isFinished : LoopRes → Bool
  | .running _ _ _ _ => false
  | .finished _ _ _ => true

theorem runCycles_finished {env : Nat → CycleInput} {hashFn : String → String}
    {M : Nat} : ∀ {n : Nat} {st : PagState} {p k : Nat},
    runCycles env hashFn M n (.finished st p k) = .finished st p k := by
  intro n
  induction n with
  | zero => intro st p k; rfl
  | succ n ih => intro st p k; exact ih

theorem runCycles_succ {env : Nat → CycleInput} {hashFn : String → String}
    {M n : Nat} {r : LoopRes} :
    runCycles env hashFn M (n + 1) r =
      runCycles env hashFn M n (stepRun env hashFn M r) := rfl

theorem stepRun_halt {env : Nat → CycleInput} {hashFn : String → String}
    {M k page fail : Nat} {st st' : PagState}
    (h : page ≤ M ∧ fail < 3)
    (hcs : cycleStep hashFn (env k) page st = .halt st') :
    stepRun env hashFn M (.running k page fail st) = .finished st' page k := by
  simp only [stepRun]
  rw [if_pos h, hcs]

theorem stepRun_retry {env : Nat → CycleInput} {hashFn : String → String}
    {M k page fail : Nat} {st st' : PagState} {f : FailUpd}
    (h : page ≤ M ∧ fail < 3)
    (hcs : cycleStep hashFn (env k) page st = .retry st' f) :
    stepRun env hashFn M (.running k page fail st) =
      .running (k + 1) page (applyFail f fail) st' := by
  simp only [stepRun]
  rw [if_pos h, hcs]

theorem stepRun_advance {env : Nat → CycleInput} {hashFn : String → String}
    {M k page fail : Nat} {st st' : PagState} {f : FailUpd}
    (h : page ≤ M ∧ fail < 3)
    (hcs : cycleStep hashFn (env k) page st = .advance st' f) :
    stepRun env hashFn M (.running k page fail st) =
      .running (k + 1) (page + 1) (applyFail f fail) st' := by
  simp only [stepRun]
  rw [if_pos h, hcs]

theorem stepRun_stop {env : Nat → CycleInput} {hashFn : String → String}
    {M k page fail : Nat} {st : PagState}
    (h : ¬(page ≤ M ∧ fail < 3)) :
    stepRun env hashFn M (.running k page fail st) =
      .finished st page (k - 1) := by
  simp only [stepRun]
  rw [if_neg h]

/-- When the cycle is not a navigation raise, the except branch bumps the
counter by exactly one and never touches the extracted data. -/
theorem cycleStep_retry_bump {hashFn : String → String} {inp : CycleInput}
    {page : Nat} {st st' : PagState} {f : FailUpd}
    (hn : ∀ u c, inp ≠ .raiseNav u c)
    (h : cycleStep hashFn inp page st = .retry st' f) :
    st'.extracted_data = st.extracted_data ∧ f = .bump := by
  cases inp with
  | raiseEarly =>
    simp only [cycleStep] at h
    injection h with h1 h2
    subst h1
    exact ⟨rfl, h2.symm⟩
  | raiseExtract url =>
    simp only [cycleStep] at h
    split_ifs at h <;>
      first
        | exact StepRes.noConfusion h
        | (injection h with h1 h2
           subst h1
           exact ⟨rfl, h2.symm⟩)
  | raiseNav url content => exact absurd rfl (hn url content)
  | ok url content nav =>
    simp only [cycleStep, afterDedup] at h
    split_ifs at h <;> exact StepRes.noConfusion h

/-- A halting cycle appends at most one entry. -/
theorem cycleStep_halt_len {hashFn : String → String} {inp : CycleInput}
    {page : Nat} {st st' : PagState}
    (h : cycleStep hashFn inp page st = .halt st') :
    st'.extracted_data.length ≤ st.extracted_data.length + 1 := by
  cases inp with
  | raiseEarly =>
    simp only [cycleStep] at h
    exact StepRes.noConfusion h
  | raiseExtract url =>
    simp only [cycleStep] at h
    split_ifs at h <;>
      first
        | exact StepRes.noConfusion h
        | (injection h with h1
           subst h1
           omega)
  | raiseNav url content =>
    simp only [cycleStep, afterDedupRaise] at h
    split_ifs at h <;>
      first
        | exact StepRes.noConfusion h
        | (injection h with h1
           subst h1
           simp
           try omega)
  | ok url content nav =>
    simp only [cycleStep, afterDedup] at h
    split_ifs at h <;>
      first
        | exact StepRes.noConfusion h
        | (injection h with h1
           subst h1
           simp
           try omega)

/-- An advancing cycle appends at most one entry. -/
theorem cycleStep_advance_len {hashFn : String → String} {inp : CycleInput}
    {page : Nat} {st st' : PagState} {f : FailUpd}
    (h : cycleStep hashFn inp page st = .advance st' f) :
    st'.extracted_data.length ≤ st.extracted_data.length + 1 := by
  cases inp with
  | raiseEarly =>
    simp only [cycleStep] at h
    exact StepRes.noConfusion h
  | raiseExtract url =>
    simp only [cycleStep] at h
    split_ifs at h <;> exact StepRes.noConfusion h
  | raiseNav url content =>
    simp only [cycleStep, afterDedupRaise] at h
    split_ifs at h <;> exact StepRes.noConfusion h
  | ok url content nav =>
    simp only [cycleStep, afterDedup] at h
    split_ifs at h <;>
      first
        | exact StepRes.noConfusion h
        | (injection h with h1 h2
           subst h1
           simp
           try omega)

/-- Page ceiling, entry bound, cycle bound and termination for the loop from
any start, provided navigation never raises: every non-`raiseNav` iteration
strictly decreases `(M + 1 - page) * 4 + (3 - fail)`. -/
theorem runCycles_bounds (env : Nat → CycleInput) (hashFn : String → String)
    (M : Nat) (hnav : ∀ k u c, env k ≠ CycleInput.raiseNav u c) :
    ∀ (n k page fail : Nat) (st : PagState), page ≤ M + 1 →
    pagesOf (runCycles env hashFn M n (.running k page fail st)) ≤ M ∧
    (resPagState (runCycles env hashFn M n
      (.running k page fail st))).extracted_data.length ≤
      st.extracted_data.length + (M + 1 - page) ∧
    cyclesOf (runCycles env hashFn M n (.running k page fail st)) ≤
      (k - 1) + ((M + 1 - page) * 4 + (3 - fail)) ∧
    ((M + 1 - page) * 4 + (3 - fail) < n →
      isFinished (runCycles env hashFn M n (.running k page fail st)) = true) := by
  intro n
  induction n with
  | zero =>
    intro k page fail st hpage
    refine ⟨?_, ?_, ?_, ?_⟩
    · simp only [runCycles, pagesOf]
      omega
    · simp only [runCycles, resPagState]
      omega
    · simp only [runCycles, cyclesOf]
      omega
    · intro hm
      exact absurd hm (by omega)
  | succ n ih =>
    intro k page fail st hpage
    by_cases hg : page ≤ M ∧ fail < 3
    · obtain ⟨hp, hf⟩ := hg
      rw [runCycles_succ]
      cases hcs : cycleStep hashFn (env k) page st with
      | halt st' =>
        rw [stepRun_halt ⟨hp, hf⟩ hcs, runCycles_finished]
        have hl := cycleStep_halt_len hcs
        refine ⟨?_, ?_, ?_, fun _ => rfl⟩
        · simp only [pagesOf]
          omega
        · simp only [resPagState]
          omega
        · simp only [cyclesOf]
          omega
      | retry st' f =>
        rw [stepRun_retry ⟨hp, hf⟩ hcs]
        obtain ⟨hfr, hfb⟩ := cycleStep_retry_bump (fun u c => hnav k u c) hcs
        subst hfb
        simp only [applyFail]
        obtain ⟨ih1, ih2, ih3, ih4⟩ := ih (k + 1) page (fail + 1) st' hpage
        rw [hfr] at ih2
        exact ⟨ih1, ih2, by omega, fun hm => ih4 (by omega)⟩
      | advance st' f =>
        rw [stepRun_advance ⟨hp, hf⟩ hcs]
        have hl := cycleStep_advance_len hcs
        obtain ⟨ih1, ih2, ih3, ih4⟩ := ih (k + 1) (page + 1) (applyFail f fail) st'
          (by omega)
        exact ⟨ih1, by omega, by omega, fun hm => ih4 (by omega)⟩
    · rw [runCycles_succ, stepRun_stop hg, runCycles_finished]
      refine ⟨?_, ?_, ?_, fun _ => rfl⟩
      · simp only [pagesOf]
        omega
      · simp only [resPagState]
        omega
      · simp only [cyclesOf]
        omega

/-- Claim C2, amended: the loop-guard bounds hold on the exception-free
navigation paths — when no cycle raises during
`_smart_pagination_navigation`, the run reports at most `max_pages` processed
pages, appends at most `max_pages` entries (at most one when
`max_pages = 1`), executes at most `4 * max_pages + 3` cycles and terminates
within `4 * max_pages + 4` loop turns.  Without that proviso the claim is
false: a navigation raise after a successful append resets the failure
budget without page progress, so the loop can run unboundedly and append
more than `max_pages` entries (see `extract_all_data_bounded_cex`). -/
theorem extract_all_data_bounded (env : Nat → CycleInput)
    (hashFn : String → String) (max_pages : Nat) (h : 1 ≤ max_pages)
    (hnav : ∀ k u c, env k ≠ CycleInput.raiseNav u c) :
    (∀ n, pagesOf (extract_all_data env hashFn max_pages n) ≤ max_pages) ∧
    (∀ n, (resPagState (extract_all_data env hashFn max_pages
      n)).extracted_data.length ≤ max_pages) ∧
    (∀ n, cyclesOf (extract_all_data env hashFn max_pages n) ≤
      4 * max_pages + 3) ∧
    (∀ n, 4 * max_pages + 4 ≤ n →
      isFinished (extract_all_data env hashFn max_pages n) = true) ∧
    (max_pages = 1 → ∀ n,
      (resPagState (extract_all_data env hashFn max_pages
        n)).extracted_data.length ≤ 1) := by
  have hb := fun n =>
    runCycles_bounds env hashFn max_pages hnav n 1 1 0 initState (by omega)
  have h0 : initState.extracted_data.length = 0 := rfl
  refine ⟨?_, ?_, ?_, ?_, ?_⟩
  · intro n
    exact (hb n).1
  · intro n
    have := (hb n).2.1
    rw [h0] at this
    simp only [extract_all_data]
    omega
  · intro n
    have := (hb n).2.2.1
    simp only [extract_all_data]
    omega
  · intro n hn
    exact (hb n).2.2.2 (by omega)
  · intro hM n
    have := (hb n).2.1
    rw [h0] at this
    simp only [extract_all_data]
    omega

/-- Claim C2, counterexample: with `max_pages = 1`, a cycle that appends an
entry and then raises during navigation retries the same page with the
failure budget back at 1; a second such cycle with a fresh URL and fresh
content appends a second entry — after two cycles the extracted data holds
two entries, refuting the at-most-one bound of the original claim. -/
theorem extract_all_data_bounded_cex :
    ¬ ((resPagState (extract_all_data
        (fun k => if k = 1 then .raiseNav "a" "p" else .raiseNav "b" "q")
        (fun s => s) 1 2)).extracted_data.length ≤ 1) := by
  decide

/-- Witness for `extract_all_data_bounded`: a concrete run in which every
cycle extracts fresh content and navigation always succeeds. -/
theorem extract_all_data_bounded_witness :
    (1 : Nat) ≤ 5 ∧
    pagesOf (extract_all_data (fun _ => .ok "u" "c" true) (fun s => s) 5 30) ≤ 5 ∧
    (resPagState (extract_all_data (fun _ => .ok "u" "c" true)
      (fun s => s) 5 30)).extracted_data.length ≤ 5 ∧
    cyclesOf (extract_all_data (fun _ => .ok "u" "c" true) (fun s => s) 5 30) ≤
      4 * 5 + 3 ∧
    isFinished (extract_all_data (fun _ => .ok "u" "c" true)
      (fun s => s) 5 30) = true :=
  have h := extract_all_data_bounded (fun _ => .ok "u" "c" true) (fun s => s) 5
    (by decide) (fun _ _ _ hh => CycleInput.noConfusion hh)
  ⟨by decide, h.1 30, h.2.1 30, h.2.2.1 30, h.2.2.2.1 30 (by decide)⟩

/-- The state carried out of a cycle, whatever the outcome. -/
def resState : StepRes → PagState
  | .halt st => st
  | .retry st _ => st
  | .advance st _ => st

/-- The run-state invariant of the claims: every extracted entry's
fingerprint is recorded, fingerprints of extracted entries are pairwise
distinct, and both tracking sets are duplicate-free (membership checks
precede insertions). -/
def StInv (hashFn : String → String) (st : PagState) : Prop :=
  (∀ e ∈ st.extracted_data, hashFn e.content ∈ st.content_hashes) ∧
  st.extracted_data.Pairwise (fun a b => hashFn a.content ≠ hashFn b.content) ∧
  st.content_hashes.Nodup ∧
  st.visited_urls.Nodup

/-- Growth-and-invariant transfer between two states. -/
def stepOk (hashFn : String → String) (st st' : PagState) : Prop :=
  st.visited_urls.IsSuffix st'.visited_urls ∧
  st.content_hashes.IsSuffix st'.content_hashes ∧
  (StInv hashFn st → StInv hashFn st')

theorem stepOk_refl {hashFn : String → String} {st : PagState} :
    stepOk hashFn st st :=
  ⟨List.suffix_refl _, List.suffix_refl _, id⟩

theorem stepOk_trans {hashFn : String → String} {s1 s2 s3 : PagState}
    (h1 : stepOk hashFn s1 s2) (h2 : stepOk hashFn s2 s3) :
    stepOk hashFn s1 s3 :=
  ⟨h1.1.trans h2.1, h1.2.1.trans h2.2.1, fun hi => h2.2.2 (h1.2.2 hi)⟩

theorem StInv_append {hashFn : String → String} {st : PagState}
    {page : Nat} {url content : String}
    (hm : hashFn content ∉ st.content_hashes) (hinv : StInv hashFn st) :
    StInv hashFn { st with
      content_hashes := hashFn content :: st.content_hashes
      extracted_data := st.extracted_data ++ [⟨page, url, content⟩] } := by
  obtain ⟨i1, i2, i3, i4⟩ := hinv
  refine ⟨?_, ?_, ?_, i4⟩
  · intro e he
    rcases List.mem_append.mp he with h1 | h1
    · exact List.mem_cons_of_mem _ (i1 e h1)
    · rw [List.mem_singleton] at h1
      subst h1
      exact List.mem_cons_self _ _
  · rw [List.pairwise_append]
    refine ⟨i2, by simp, ?_⟩
    intro a ha b hb
    rw [List.mem_singleton] at hb
    subst hb
    intro heq
    exact hm (heq ▸ i1 a ha)
  · exact List.nodup_cons.mpr ⟨hm, i3⟩

/-- `afterDedup` only ever extends the state, behind its dedup check. -/
theorem afterDedup_extends {hashFn : String → String} {st : PagState}
    {url content : String} {page : Nat} {nav : Bool} :
    stepOk hashFn st
      (resState (afterDedup st (hashFn content) url content page nav)) := by
  unfold afterDedup
  by_cases hm : hashFn content ∈ st.content_hashes
  · rw [if_pos hm]
    cases nav <;> exact stepOk_refl
  · rw [if_neg hm]
    cases nav <;>
      exact ⟨List.suffix_refl _, List.suffix_cons _ _, StInv_append hm⟩

/-- The raise-during-navigation variant extends the state the same way. -/
theorem afterDedupRaise_extends {hashFn : String → String} {st : PagState}
    {url content : String} {page : Nat} :
    stepOk hashFn st
      (resState (afterDedupRaise st (hashFn content) url content page)) := by
  unfold afterDedupRaise
  by_cases hm : hashFn content ∈ st.content_hashes
  · rw [if_pos hm]
    exact stepOk_refl
  · rw [if_neg hm]
    exact ⟨List.suffix_refl _, List.suffix_cons _ _, StInv_append hm⟩

/-- Recording a fresh URL key (with any bookkeeping of the duplicate
counters) only extends the state. -/
theorem stepOk_mark {hashFn : String → String} {st : PagState} {key : String}
    {c : Nat} {l : Option String} (hv : key ∉ st.visited_urls) :
    stepOk hashFn st
      { visited_urls := key :: st.visited_urls
        extracted_data := st.extracted_data
        content_hashes := st.content_hashes
        consecutive_same_content := c
        last_content_hash := l } :=
  ⟨List.suffix_cons _ _, List.suffix_refl _,
   fun ⟨i1, i2, i3, i4⟩ => ⟨i1, i2, i3, List.nodup_cons.mpr ⟨hv, i4⟩⟩⟩

/-- Every cycle outcome — the navigation-raise shape included — only extends
the tracking sets and preserves the run-state invariant. -/
theorem cycleStep_extends (hashFn : String → String) (inp : CycleInput)
    (page : Nat) (st : PagState) :
    stepOk hashFn st (resState (cycleStep hashFn inp page st)) := by
  cases inp with
  | raiseEarly => exact stepOk_refl
  | raiseExtract url =>
    simp only [cycleStep]
    by_cases hv : UrlNorm.normalize_url url ∈ st.visited_urls
    · rw [if_pos hv]; exact stepOk_refl
    · rw [if_neg hv]
      exact stepOk_mark hv
  | raiseNav url content =>
    simp only [cycleStep]
    by_cases hv : UrlNorm.normalize_url url ∈ st.visited_urls
    · rw [if_pos hv]; exact stepOk_refl
    · rw [if_neg hv]
      by_cases hc : content = ""
      · rw [if_pos hc]
        exact stepOk_mark hv
      · rw [if_neg hc]
        by_cases hl : ({ st with
            visited_urls := UrlNorm.normalize_url url :: st.visited_urls } :
              PagState).last_content_hash = some (hashFn content)
        · rw [if_pos hl]
          by_cases hcons : ({ st with
              visited_urls := UrlNorm.normalize_url url :: st.visited_urls } :
                PagState).consecutive_same_content + 1 ≥ 2
          · rw [if_pos hcons]
            exact stepOk_mark hv
          · rw [if_neg hcons]
            exact stepOk_trans (stepOk_mark hv) afterDedupRaise_extends
        · rw [if_neg hl]
          exact stepOk_trans (stepOk_mark hv) afterDedupRaise_extends
  | ok url content nav =>
    simp only [cycleStep]
    by_cases hv : UrlNorm.normalize_url url ∈ st.visited_urls
    · rw [if_pos hv]; exact stepOk_refl
    · rw [if_neg hv]
      by_cases hc : content = ""
      · rw [if_pos hc]
        cases nav <;> exact stepOk_mark hv
      · rw [if_neg hc]
        by_cases hl : ({ st with
            visited_urls := UrlNorm.normalize_url url :: st.visited_urls } :
              PagState).last_content_hash = some (hashFn content)
        · rw [if_pos hl]
          by_cases hcons : ({ st with
              visited_urls := UrlNorm.normalize_url url :: st.visited_urls } :
                PagState).consecutive_same_content + 1 ≥ 2
          · rw [if_pos hcons]
            exact stepOk_mark hv
          · rw [if_neg hcons]
            exact stepOk_trans (stepOk_mark hv) afterDedup_extends
        · rw [if_neg hl]
          exact stepOk_trans (stepOk_mark hv) afterDedup_extends

/-- One loop turn only extends the state. -/
theorem stepRun_extends (env : Nat → CycleInput) (hashFn : String → String)
    (M : Nat) (r : LoopRes) :
    stepOk hashFn (resPagState r) (resPagState (stepRun env hashFn M r)) := by
  cases r with
  | finished st p k => exact stepOk_refl
  | running k page fail st =>
    by_cases hg : page ≤ M ∧ fail < 3
    · have hx := cycleStep_extends hashFn (env k) page st
      cases hcs : cycleStep hashFn (env k) page st with
      | halt st' =>
        rw [stepRun_halt hg hcs]
        rw [hcs] at hx
        exact hx
      | retry st' f =>
        rw [stepRun_retry hg hcs]
        rw [hcs] at hx
        exact hx
      | advance st' f =>
        rw [stepRun_advance hg hcs]
        rw [hcs] at hx
        exact hx
    · rw [stepRun_stop hg]
      exact stepOk_refl

/-- Between any point of the run and any later point, the tracking sets only
grow and the run-state invariant is preserved. -/
theorem runCycles_extends (env : Nat → CycleInput) (hashFn : String → String)
    (M : Nat) : ∀ (n : Nat) (r : LoopRes),
    stepOk hashFn (resPagState r) (resPagState (runCycles env hashFn M n r)) := by
  intro n
  induction n with
  | zero => intro r; exact stepOk_refl
  | succ n ih =>
    intro r
    exact stepOk_trans (stepRun_extends env hashFn M r)
      (ih (stepRun env hashFn M r))

theorem initState_inv (hashFn : String → String) : StInv hashFn initState := by
  refine ⟨?_, ?_, ?_, ?_⟩ <;> simp [initState, StInv]

/-- Claim C7: throughout every run of the extraction loop — exception paths
included — the `visited_urls` and `content_hashes` sets only grow (the state
at any point of the run is a suffix of every later state), every insertion is
behind a membership check on the same set (both sets stay duplicate-free),
and a page entry is appended only when its fingerprint was absent — so the
appended entries have pairwise distinct content fingerprints, in particular
in the state `extract_all_data` reaches after any number of cycles. -/
theorem extract_all_data_invariants (env : Nat → CycleInput)
    (hashFn : String → String) (M : Nat) (n : Nat) (r : LoopRes)
    (hinv : StInv hashFn (resPagState r)) :
    List.IsSuffix (resPagState r).visited_urls
      (resPagState (runCycles env hashFn M n r)).visited_urls ∧
    List.IsSuffix (resPagState r).content_hashes
      (resPagState (runCycles env hashFn M n r)).content_hashes ∧
    StInv hashFn (resPagState (runCycles env hashFn M n r)) ∧
    (∀ m, (resPagState (extract_all_data env hashFn M m)).extracted_data.Pairwise
      (fun a b => hashFn a.content ≠ hashFn b.content)) := by
  obtain ⟨s1, s2, s3⟩ := runCycles_extends env hashFn M n r
  refine ⟨s1, s2, s3 hinv, ?_⟩
  intro m
  obtain ⟨-, -, s3i⟩ := runCycles_extends env hashFn M m (.running 1 1 0 initState)
  exact (s3i (initState_inv hashFn)).2.1

/-- Witness for `extract_all_data_invariants` on a concrete run started from
the freshly initialised state. -/
theorem extract_all_data_invariants_witness :
    StInv (fun s => s) initState ∧
    (List.IsSuffix initState.visited_urls
      (resPagState (runCycles (fun _ => .ok "u" "c" false) (fun s => s) 7 7
        (.running 1 1 0 initState))).visited_urls ∧
    List.IsSuffix initState.content_hashes
      (resPagState (runCycles (fun _ => .ok "u" "c" false) (fun s => s) 7 7
        (.running 1 1 0 initState))).content_hashes ∧
    StInv (fun s => s)
      (resPagState (runCycles (fun _ => .ok "u" "c" false) (fun s => s) 7 7
        (.running 1 1 0 initState))) ∧
    (resPagState (extract_all_data (fun _ => .ok "u" "c" false)
      (fun s => s) 7 5)).extracted_data.Pairwise
      (fun a b => ((fun s => s) a.content) ≠ ((fun s => s) b.content))) :=
  have h := extract_all_data_invariants (fun _ => .ok "u" "c" false) (fun s => s)
    7 7 (.running 1 1 0 initState) (initState_inv (fun s => s))
  ⟨initState_inv (fun s => s), h.1, h.2.1, h.2.2.1, h.2.2.2 5⟩

end SmartPagination

namespace Extraction

/-!
`CompanyExtractor.extract` (`gtm_agent/gtm_agent/extraction.py`).  Effectful
collaborators are oracles in `ExtractEnv`: `hasVision`/`hasScreenshot`/`hasLLM`
model the truthiness of `self.vision_llm`, `screenshot_bytes` and `self.llm`;
each `Option String` response is the text returned by the corresponding LLM
call, with `none` standing for a raised exception.  `json.loads` is an
abstract parameter `loads : String → Option Json` (`none` = `JSONDecodeError`).
`str()` of parsed values is `jsonToStr` (exact on strings, numbers, booleans
and `None`; container rendering approximates Python `repr` quoting).  The DOM
candidate collection phase is abstract: `extract` receives the collected
`candidates` list directly.
-/

/-- Parsed JSON values as handled by `_parse_llm_response`; number literals
are kept as source text. -/
inductive Json where
  | null : Json
  | bool (b : Bool) : Json
  | num (lit : String) : Json
  | str (s : String) : Json
  | arr (items : List Json) : Json
  | obj (fields : List (String × Json)) : Json

mutual
/-- Python `str()` applied to a decoded JSON value. -/
def jsonToStr : Json → String
  | .null => "None"
  | .bool true => "True"
  | .bool false => "False"
  | .num lit => lit
  | .str s => s
  | .arr items => "[" ++ jsonListStr items ++ "]"
  | .obj fields => "\x7b" ++ jsonFieldsStr fields ++ "\x7d"
/-- Rendering of a JSON array body. -/
def jsonListStr : List Json → String
  | [] => ""
  | [x] => jsonToStr x
  | x :: rest => jsonToStr x ++ ", " ++ jsonListStr rest
/-- Rendering of a JSON object body. -/
def jsonFieldsStr : List (String × Json) → String
  | [] => ""
  | [(k, v)] => k ++ ": " ++ jsonToStr v
  | (k, v) :: rest => k ++ ": " ++ jsonToStr v ++ ", " ++ jsonFieldsStr rest
end

/-- The `CompanyRecord` dataclass. -/
structure CompanyRecord where
  name : String
  context : Option String
deriving DecidableEq

/-- Membership of a string in a Python set, modelled as a list of the
inserted keys. -/
def memStr (x : String) : List String → Bool
  | [] => false
  | a :: s => (x == a) || memStr x s

/-- `CompanyExtractor._normalize`: `re.sub(r"\s+", " ", text).strip()` —
collapse whitespace runs and strip. -/
def _normalize (s : String) : String :=
  String.mk (PyStr.joinWith [' '] (PyStr.wordsOf s.data))

/-- The character class `[\.)-]` of `_clean_name`. -/
def isDotParenDash (c : Char) : Bool := c == '.' || c == ')' || c == '-'

/-- The character class `[-•\s]` of `_clean_name`. -/
def isDashBulletSpace (c : Char) : Bool := c == '-' || c == '•' || PyStr.isSpace c

/-- `re.sub(r"^\d+[\.)-]*\s*", "", text)`: the three character classes are
disjoint, so the greedy match is a chain of `dropWhile`s, applied only when
the text starts with a digit. -/
def cleanNameStep1 (cs : List Char) : List Char :=
  match cs with
  | [] => []
  | c :: _ =>
    if c.isDigit then
      ((cs.dropWhile Char.isDigit).dropWhile isDotParenDash).dropWhile PyStr.isSpace
    else cs

/-- `CompanyExtractor._clean_name`: strip a leading numbering prefix, then a
leading `[-•\s]+` run, then surrounding whitespace. -/
def _clean_name (s : String) : String :=
  PyStr.pyStrip (String.mk ((cleanNameStep1 s.data).dropWhile isDashBulletSpace))

/-- Python `str.startswith` on character lists. -/
def startsWithL : List Char → List Char → Bool
  | _, [] => true
  | [], _ :: _ => false
  | c :: cs, p :: ps => (c == p) && startsWithL cs ps

/-- Scanner deciding whether some maximal `[A-Za-z]+` run starts with an
uppercase letter, carrying whether the previous character was a letter. -/
def capStartAux : Bool → List Char → Bool
  | _, [] => false
  | prevAlpha, c :: rest =>
    if c.isAlpha && !prevAlpha && c.isUpper then true
    else capStartAux c.isAlpha rest

/-- `sum(1 for token in re.findall(r"[A-Za-z]+", text) if token[0].isupper()) >= 1`. -/
def capRunStart (cs : List Char) : Bool := capStartAux false cs

/-- `CompanyExtractor._looks_like_company`, clause by clause. -/
def _looks_like_company (s : String) : Bool :=
  if s.data.isEmpty then false
  else if 180 < s.data.length || s.data.length < 2 then false
  else if PyStr.containsSub (PyStr.lowerStr s) "http" ||
      PyStr.containsSub (PyStr.lowerStr s) "@" ||
      PyStr.containsSub (PyStr.lowerStr s) "copyright" ||
      PyStr.containsSub (PyStr.lowerStr s) "privacy" ||
      PyStr.containsSub (PyStr.lowerStr s) "login" then false
  else if PyStr.containsSub (PyStr.lowerStr s) "points by" ||
      PyStr.containsSub (PyStr.lowerStr s) "comments" then false
  else if PyStr.containsSub (PyStr.lowerStr s) "hacker news" then false
  else if memStr (PyStr.lowerStr s) ["past", "ask", "show", "jobs", "submit", "guidelines"] then
    false
  else if PyStr.containsSub (PyStr.lowerStr s) "name date filed" then false
  else capRunStart s.data

/-- The dedup key `record.name.lower()`. -/
def lowerName (r : CompanyRecord) : String := PyStr.lowerStr r.name

/-- The loop body shared by `_dedupe` and `_merge_records`: keep a record iff
its lowercased name is not in `seen`, inserting the kept keys. -/
def dedupeAux (seen : List String) : List CompanyRecord → List CompanyRecord
  | [] => []
  | r :: rest =>
    if memStr (lowerName r) seen then dedupeAux seen rest
    else r :: dedupeAux (lowerName r :: seen) rest

/-- `CompanyExtractor._dedupe`. -/
def _dedupe (records : List CompanyRecord) : List CompanyRecord := dedupeAux [] records

/-- `CompanyExtractor._merge_records`: append the new records that introduce
a fresh lowercased name. -/
def _merge_records (existing new_records : List CompanyRecord) : List CompanyRecord :=
  existing ++ dedupeAux (existing.map lowerName) new_records

/-- `item.get(key)` on a decoded JSON object — last occurrence of a repeated
key wins, as in a Python dict built by `json.loads`. -/
def getField (fields : List (String × Json)) (key : String) : Option Json :=
  match fields.reverse.find? (fun p => p.1 == key) with
  | some p => some p.2
  | none => none

/-- A JSON number literal denoting zero: all mantissa digits are `0`. -/
def numLitIsZero (lit : String) : Bool :=
  ((lit.data.takeWhile (fun c => !(c == 'e' || c == 'E'))).filter Char.isDigit).all (· == '0')

/-- Python truthiness of a decoded JSON value. -/
def jsonTruthy : Json → Bool
  | .null => false
  | .bool b => b
  | .num lit => !(numLitIsZero lit)
  | .str s => !s.data.isEmpty
  | .arr items => !items.isEmpty
  | .obj fields => !fields.isEmpty

/-- `str(item.get("name", ""))`. -/
def nameFieldStr (fields : List (String × Json)) : String :=
  match getField fields "name" with
  | some v => jsonToStr v
  | none => ""

/-- `context = self._normalize(str(context_value)) if context_value else None`. -/
def contextFieldOpt (fields : List (String × Json)) : Option String :=
  match getField fields "context" with
  | some v => if jsonTruthy v then some (_normalize (jsonToStr v)) else none
  | none => none

/-- The candidate name of an item: `_clean_name(_normalize(str(item.get("name", ""))))`. -/
def itemName (fields : List (String × Json)) : String :=
  _clean_name (_normalize (nameFieldStr fields))

/-- The item loop of `_parse_llm_response`: skip non-dicts, empty names,
`hacker news` prefixes, non-companies and names already in `seen`. -/
def parseItems (seen : List String) : List Json → List CompanyRecord
  | [] => []
  | item :: rest =>
    match item with
    | .obj fields =>
      if (itemName fields).data.isEmpty then parseItems seen rest
      else if startsWithL (PyStr.lowerStr (itemName fields)).data ("hacker news").data then
        parseItems seen rest
      else if !(_looks_like_company (itemName fields)) then parseItems seen rest
      else if memStr (PyStr.lowerStr (itemName fields)) seen then parseItems seen rest
      else ⟨itemName fields, contextFieldOpt fields⟩ ::
        parseItems (PyStr.lowerStr (itemName fields) :: seen) rest
    | _ => parseItems seen rest

/-- The `parsed` list of `_parse_llm_response` (`[]` when the decoded value
is not a list). -/
def parsedOf : Json → List CompanyRecord
  | Json.arr items => parseItems [] items
  | _ => []

/-- `return parsed or fallback`. -/
def postParse (data : Json) (fallback : List CompanyRecord) : List CompanyRecord :=
  if (parsedOf data).isEmpty then fallback else parsedOf data

/-- Index scanner behind `str.find` for a single character. -/
def idxOfAux (c : Char) : List Char → Nat → Option Nat
  | [], _ => none
  | x :: rest, i => if x == c then some i else idxOfAux c rest (i + 1)

/-- `cleaned.find(c)` (`none` for `-1`). -/
def idxOf? (c : Char) (cs : List Char) : Option Nat := idxOfAux c cs 0

/-- `cleaned.rfind(c)` (`none` for `-1`). -/
def lastIdxOf? (c : Char) (cs : List Char) : Option Nat :=
  match idxOf? c cs.reverse with
  | some j => some (cs.length - 1 - j)
  | none => none

/-- The retry slice `cleaned[start : end + 1]` with
`start = cleaned.find("[")`, `end = cleaned.rfind("]")`, defined when both
exist and `end > start`. -/
def bracketSlice (cs : List Char) : Option (List Char) :=
  match idxOf? '[' cs, lastIdxOf? ']' cs with
  | some s, some e => if s < e then some ((cs.drop s).take (e + 1 - s)) else none
  | _, _ => none

/-- `CompanyExtractor._parse_llm_response`. -/
def _parse_llm_response (loads : String → Option Json) (text : String)
    (fallback : List CompanyRecord) : List CompanyRecord :=
  if (PyStr.pyStrip text).data.isEmpty then fallback
  else
    match loads (PyStr.pyStrip text) with
    | some data => postParse data fallback
    | none =>
      match bracketSlice (PyStr.pyStrip text).data with
      | some sub =>
        match loads (String.mk sub) with
        | some data => postParse data fallback
        | none => fallback
      | none => fallback

/-- The oracles of one `extract` call (see the namespace header). -/
structure ExtractEnv where
  hasVision : Bool
  hasScreenshot : Bool
  hasLLM : Bool
  visionResp : Option String
  refineResp : Option String
  visionConvResp : Option String
  domConvResp : Option String
  domExcerpt : Option String

/-- Truthiness of an `Optional[str]`. -/
def truthyOptStr : Option String → Bool
  | some s => !s.data.isEmpty
  | none => false

/-- `CompanyExtractor._refine_with_llm`: on an LLM exception the input
records are returned unchanged, otherwise the response is parsed with the
input records as fallback. -/
def _refine_with_llm (loads : String → Option Json) (env : ExtractEnv)
    (records : List CompanyRecord) : List CompanyRecord :=
  match env.refineResp with
  | none => records
  | some t => _parse_llm_response loads t records

/-- `CompanyExtractor._convert_text_to_records` (both the `vision` and the
`dom` call sites), with `resp` the oracle for `self.llm.complete`. -/
def _convert_text_to_records (loads : String → Option Json) (env : ExtractEnv)
    (resp : Option String) (max_results : Nat) : List CompanyRecord :=
  if !env.hasLLM then []
  else
    match resp with
    | none => []
    | some t => (_parse_llm_response loads t []).take max_results

/-- `CompanyExtractor._extract_with_vision`. -/
def _extract_with_vision (loads : String → Option Json) (env : ExtractEnv)
    (max_results : Nat) : List CompanyRecord × String :=
  if !env.hasVision then ([], "vision_unavailable")
  else
    match env.visionResp with
    | none => ([], "vision_error")
    | some t =>
      if !(_parse_llm_response loads t []).isEmpty then
        ((_parse_llm_response loads t []).take max_results, "vision_json")
      else if !(_convert_text_to_records loads env env.visionConvResp max_results).isEmpty then
        ((_convert_text_to_records loads env env.visionConvResp max_results).take max_results,
          "vision_llm")
      else ([], "vision_empty")

/-- `CompanyExtractor._extract_from_dom`. -/
def _extract_from_dom (loads : String → Option Json) (env : ExtractEnv)
    (max_results : Nat) : List CompanyRecord × String :=
  (_convert_text_to_records loads env env.domConvResp max_results, "dom_llm")

/-- The tail of `extract` after the vision block: LLM refinement when
candidates exist, direct DOM extraction when none do but a DOM excerpt is
available, and the `dom_heuristic` default. -/
def extractAfterVision (loads : String → Option Json) (env : ExtractEnv)
    (combined : List CompanyRecord) (max_results : Nat) : List CompanyRecord × String :=
  if env.hasLLM then
    if !combined.isEmpty then
      if !(_refine_with_llm loads env combined).isEmpty then
        ((_refine_with_llm loads env combined).take max_results, "dom_llm_refine")
      else (combined.take max_results, "dom_heuristic")
    else if truthyOptStr env.domExcerpt then
      if !(_extract_from_dom loads env max_results).1.isEmpty then
        ((_extract_from_dom loads env max_results).1.take max_results,
          (_extract_from_dom loads env max_results).2)
      else (combined.take max_results, "dom_heuristic")
    else (combined.take max_results, "dom_heuristic")
  else (combined.take max_results, "dom_heuristic")

/-- `CompanyExtractor.extract`: dedupe the DOM candidates, try vision first
(returning merged records on success), then fall through to the LLM stages. -/
def extract (loads : String → Option Json) (env : ExtractEnv)
    (candidates : List CompanyRecord) (max_results : Nat) : List CompanyRecord × String :=
  if env.hasVision && env.hasScreenshot then
    if !(_extract_with_vision loads env max_results).1.isEmpty then
      ((_merge_records (_dedupe candidates)
          (_extract_with_vision loads env max_results).1).take max_results,
        (_extract_with_vision loads env max_results).2)
    else extractAfterVision loads env (_dedupe candidates) max_results
  else extractAfterVision loads env (_dedupe candidates) max_results

/-- No two records of the list share a lowercased name. -/
def goodRecs (l : List CompanyRecord) : Prop :=
  l.Pairwise (fun a b => lowerName a ≠ lowerName b)

theorem goodRecs_nil : goodRecs [] := List.Pairwise.nil

theorem memStr_cons {x a : String} {s : List String} :
    memStr x (a :: s) = ((x == a) || memStr x s) := rfl

theorem or_false_left {a b : Bool} (h : (a || b) = false) : a = false := by
  cases a
  · rfl
  · simp at h

theorem or_false_right {a b : Bool} (h : (a || b) = false) : b = false := by
  cases b
  · rfl
  · simp at h

theorem beq_false_ne {a b : String} (h : (a == b) = false) : a ≠ b := by
  intro he
  rw [he] at h
  simp at h

theorem memStr_of_mem {x : String} : ∀ {l : List String}, x ∈ l → memStr x l = true := by
  intro l
  induction l with
  | nil => intro h; exact absurd h (List.not_mem_nil x)
  | cons a s ih =>
    intro h
    rw [memStr_cons]
    rcases List.mem_cons.mp h with he | ht
    · rw [he]; simp
    · rw [ih ht]; simp

theorem goodRecs_take {l : List CompanyRecord} (h : goodRecs l) (n : Nat) :
    goodRecs (l.take n) := h.sublist (List.take_sublist n l)

/-- The dedup loop yields pairwise-distinct lowercased names, none of which
was already in `seen`. -/
theorem dedupeAux_good : ∀ (l : List CompanyRecord) (seen : List String),
    goodRecs (dedupeAux seen l) ∧
      ∀ r ∈ dedupeAux seen l, memStr (lowerName r) seen = false := by
  intro l
  induction l with
  | nil =>
    intro seen
    refine ⟨goodRecs_nil, ?_⟩
    intro r hr
    simp [dedupeAux] at hr
  | cons r rest ih =>
    intro seen
    cases h : memStr (lowerName r) seen with
    | true =>
      have hres : dedupeAux seen (r :: rest) = dedupeAux seen rest := by
        simp [dedupeAux, h]
      rw [hres]
      exact ih seen
    | false =>
      have hres : dedupeAux seen (r :: rest) = r :: dedupeAux (lowerName r :: seen) rest := by
        simp [dedupeAux, h]
      obtain ⟨g, m⟩ := ih (lowerName r :: seen)
      rw [hres]
      refine ⟨List.Pairwise.cons ?_ g, ?_⟩
      · intro b hb
        have hm := m b hb
        rw [memStr_cons] at hm
        exact Ne.symm (beq_false_ne (or_false_left hm))
      · intro q hq
        rcases List.mem_cons.mp hq with he | ht
        · rw [he]; exact h
        · have hm := m q ht
          rw [memStr_cons] at hm
          exact or_false_right hm

theorem dedupe_good (records : List CompanyRecord) : goodRecs (_dedupe records) :=
  (dedupeAux_good records []).1

/-- Merging preserves case-insensitive freedom from duplicates: the appended
records avoid every key of the existing ones. -/
theorem merge_records_good {ex : List CompanyRecord} (h : goodRecs ex)
    (new_records : List CompanyRecord) : goodRecs (_merge_records ex new_records) := by
  unfold _merge_records goodRecs
  rw [List.pairwise_append]
  refine ⟨h, (dedupeAux_good new_records (ex.map lowerName)).1, ?_⟩
  intro a ha b hb
  have hm := (dedupeAux_good new_records (ex.map lowerName)).2 b hb
  intro he
  have hmem : memStr (lowerName b) (ex.map lowerName) = true := by
    rw [← he]
    exact memStr_of_mem (List.mem_map_of_mem lowerName ha)
  rw [hmem] at hm
  exact Bool.noConfusion hm

/-- The item loop of `_parse_llm_response` also dedups by lowercased name
via its `seen` set. -/
theorem parseItems_good : ∀ (items : List Json) (seen : List String),
    goodRecs (parseItems seen items) ∧
      ∀ r ∈ parseItems seen items, memStr (lowerName r) seen = false := by
  intro items
  induction items with
  | nil =>
    intro seen
    refine ⟨goodRecs_nil, ?_⟩
    intro r hr
    simp [parseItems] at hr
  | cons item rest ih =>
    intro seen
    cases item with
    | obj fields =>
      simp only [parseItems]
      split_ifs with h1 h2 h3 h4
      · exact ih seen
      · exact ih seen
      · exact ih seen
      · exact ih seen
      · have h4' : memStr (PyStr.lowerStr (itemName fields)) seen = false := by
          cases hm : memStr (PyStr.lowerStr (itemName fields)) seen
          · rfl
          · exact absurd hm h4
        obtain ⟨g, m⟩ := ih (PyStr.lowerStr (itemName fields) :: seen)
        refine ⟨List.Pairwise.cons ?_ g, ?_⟩
        · intro b hb
          have hm := m b hb
          rw [memStr_cons] at hm
          exact Ne.symm (beq_false_ne (or_false_left hm))
        · intro q hq
          rcases List.mem_cons.mp hq with he | ht
          · rw [he]; exact h4'
          · have hm := m q ht
            rw [memStr_cons] at hm
            exact or_false_right hm
    | null => simp only [parseItems]; exact ih seen
    | bool b => simp only [parseItems]; exact ih seen
    | num lit => simp only [parseItems]; exact ih seen
    | str s => simp only [parseItems]; exact ih seen
    | arr xs => simp only [parseItems]; exact ih seen

theorem parsedOf_good (data : Json) : goodRecs (parsedOf data) := by
  cases data with
  | arr items => exact (parseItems_good items []).1
  | null => exact goodRecs_nil
  | bool b => exact goodRecs_nil
  | num lit => exact goodRecs_nil
  | str s => exact goodRecs_nil
  | obj fields => exact goodRecs_nil

theorem postParse_good {fallback : List CompanyRecord} (h : goodRecs fallback) (data : Json) :
    goodRecs (postParse data fallback) := by
  unfold postParse
  split_ifs with h1
  · exact h
  · exact parsedOf_good data

/-- Every result of `_parse_llm_response` is free of case-insensitive
duplicates provided the fallback is. -/
theorem parse_good (loads : String → Option Json) (t : String)
    {fallback : List CompanyRecord} (h : goodRecs fallback) :
    goodRecs (_parse_llm_response loads t fallback) := by
  unfold _parse_llm_response
  split_ifs with h1
  · exact h
  · split
    · exact postParse_good h _
    · split
      · split
        · exact postParse_good h _
        · exact h
      · exact h

theorem refine_good (loads : String → Option Json) (env : ExtractEnv)
    {records : List CompanyRecord} (h : goodRecs records) :
    goodRecs (_refine_with_llm loads env records) := by
  unfold _refine_with_llm
  split
  · exact h
  · exact parse_good loads _ h

theorem convert_good (loads : String → Option Json) (env : ExtractEnv)
    (resp : Option String) (max_results : Nat) :
    goodRecs (_convert_text_to_records loads env resp max_results) := by
  unfold _convert_text_to_records
  split_ifs with h1
  · exact goodRecs_nil
  · split
    · exact goodRecs_nil
    · exact goodRecs_take (parse_good loads _ goodRecs_nil) _

/-- Every branch of the post-vision tail returns a truncated duplicate-free
list. -/
theorem extractAfterVision_spec (loads : String → Option Json) (env : ExtractEnv)
    (combined : List CompanyRecord) (max_results : Nat) (h : goodRecs combined) :
    goodRecs (extractAfterVision loads env combined max_results).1 ∧
      (extractAfterVision loads env combined max_results).1.length ≤ max_results := by
  unfold extractAfterVision
  split_ifs with h1 h2 h3 h4 h5
  · exact ⟨goodRecs_take (refine_good loads env h) _, List.length_take_le _ _⟩
  · exact ⟨goodRecs_take h _, List.length_take_le _ _⟩
  · exact ⟨goodRecs_take (convert_good loads env env.domConvResp max_results) _,
      List.length_take_le _ _⟩
  · exact ⟨goodRecs_take h _, List.length_take_le _ _⟩
  · exact ⟨goodRecs_take h _, List.length_take_le _ _⟩
  · exact ⟨goodRecs_take h _, List.length_take_le _ _⟩

/-- Claim C5: on every execution path of `extract` (DOM heuristic, LLM
refinement, LLM-from-DOM, vision merge) the returned record list never
contains two records whose names agree up to case, and its length is at most
`max_results`. -/
theorem extract_dedup_truncated (loads : String → Option Json) (env : ExtractEnv)
    (candidates : List CompanyRecord) (max_results : Nat) :
    goodRecs (extract loads env candidates max_results).1 ∧
      (extract loads env candidates max_results).1.length ≤ max_results := by
  unfold extract
  split_ifs with h1 h2
  · exact ⟨goodRecs_take (merge_records_good (dedupe_good candidates) _) _,
      List.length_take_le _ _⟩
  · exact extractAfterVision_spec loads env (_dedupe candidates) max_results
      (dedupe_good candidates)
  · exact extractAfterVision_spec loads env (_dedupe candidates) max_results
      (dedupe_good candidates)

/-- The refinement response `t` is unparseable: `json.loads` fails on the
stripped text and on the bracketed slice (when one exists). -/
def llmUnparseable (loads : String → Option Json) (t : String) : Prop :=
  loads (PyStr.pyStrip t) = none ∧
    ∀ sub : List Char, bracketSlice (PyStr.pyStrip t).data = some sub →
      loads (String.mk sub) = none

/-- On an unparseable response `_parse_llm_response` returns its fallback. -/
theorem parse_fail_eq {loads : String → Option Json} {t : String}
    (hbad : llmUnparseable loads t) (fallback : List CompanyRecord) :
    _parse_llm_response loads t fallback = fallback := by
  unfold _parse_llm_response
  split_ifs with h1
  · rfl
  · split
    next data hl => rw [hbad.1] at hl; exact Option.noConfusion hl
    next hl =>
      split
      next sub hb =>
        split
        next data hl2 => rw [hbad.2 sub hb] at hl2; exact Option.noConfusion hl2
        next => rfl
      next => rfl

theorem dedupe_ne_nil {candidates : List CompanyRecord} (h : candidates ≠ []) :
    _dedupe candidates ≠ [] := by
  cases candidates with
  | nil => exact absurd rfl h
  | cons r rest =>
    have hres : _dedupe (r :: rest) = r :: dedupeAux (lowerName r :: []) rest := rfl
    rw [hres]
    exact List.cons_ne_nil r _

/-- With an LLM configured, nonempty candidates and an unparseable
refinement response, the post-vision tail returns the candidates themselves
(truncated), still labelled `dom_llm_refine`. -/
theorem afterVision_refine (loads : String → Option Json) (env : ExtractEnv)
    (combined : List CompanyRecord) (max_results : Nat) (t : String)
    (hl : env.hasLLM = true) (hc : combined ≠ [])
    (hr : env.refineResp = some t) (hbad : llmUnparseable loads t) :
    extractAfterVision loads env combined max_results =
      (combined.take max_results, "dom_llm_refine") := by
  have hne : combined.isEmpty = false := by
    cases combined with
    | nil => exact absurd rfl hc
    | cons a l => rfl
  have hre : _refine_with_llm loads env combined = combined := by
    unfold _refine_with_llm
    rw [hr]
    exact parse_fail_eq hbad combined
  simp [extractAfterVision, hl, hne, hre]

/-- Claim C6: when the LLM refinement response is not valid JSON and contains
no parseable bracketed array, `extract` returns the deduplicated heuristic
candidates unchanged (up to the usual `max_results` truncation) — a parse
failure never aborts the call, and with `max_results > 0` the result is
nonempty whenever heuristic candidates exist. -/
theorem extract_parse_failure_fallback (loads : String → Option Json) (env : ExtractEnv)
    (candidates : List CompanyRecord) (max_results : Nat) (t : String)
    (hl : env.hasLLM = true)
    (hnv : (env.hasVision && env.hasScreenshot) = true →
      (_extract_with_vision loads env max_results).1 = [])
    (hc : candidates ≠ [])
    (hr : env.refineResp = some t)
    (hbad : llmUnparseable loads t) :
    extract loads env candidates max_results =
        ((_dedupe candidates).take max_results, "dom_llm_refine") ∧
      (0 < max_results → (extract loads env candidates max_results).1 ≠ []) := by
  have hd := dedupe_ne_nil hc
  have hav := afterVision_refine loads env (_dedupe candidates) max_results t hl hd hr hbad
  have hmain : extract loads env candidates max_results =
      ((_dedupe candidates).take max_results, "dom_llm_refine") := by
    unfold extract
    cases hv : env.hasVision && env.hasScreenshot with
    | false => simp [hv, hav]
    | true =>
      have h0 := hnv hv
      simp [hv, h0, hav]
  refine ⟨hmain, ?_⟩
  intro hpos
  rw [hmain]
  intro hnil
  rcases List.take_eq_nil_iff.mp hnil with h0 | h0
  · omega
  · exact hd h0

/-- Witness for `extract_parse_failure_fallback`: a failing decoder, no
vision collaborator and the garbage response `not json` leave the single
heuristic candidate in place. -/
theorem extract_parse_failure_fallback_witness :
    extract (fun _ => none) ⟨false, false, true, none, some "not json", none, none, none⟩
        [⟨"Acme", none⟩] 5 = ([⟨"Acme", none⟩], "dom_llm_refine") ∧
      (extract (fun _ => none) ⟨false, false, true, none, some "not json", none, none, none⟩
        [⟨"Acme", none⟩] 5).1 ≠ [] := by
  have h := extract_parse_failure_fallback (fun _ => none)
      ⟨false, false, true, none, some "not json", none, none, none⟩ [⟨"Acme", none⟩] 5 "not json"
      rfl (fun hv => absurd hv (by decide)) (by decide) rfl ⟨rfl, fun _ _ => rfl⟩
  refine ⟨?_, h.2 (by decide)⟩
  rw [h.1]
  rfl

/-- Claim C4, counterexample: with a vision collaborator, a screenshot and a
parseable vision response, `extract` consults and returns the vision output
even though DOM-heuristic candidates exist — the result is labelled
`vision_json`, not a heuristic or LLM-refinement source, and its records
differ from what the heuristic/LLM stages would have returned. -/
theorem extract_vision_precedence_cex :
    ([⟨"Company A", none⟩] : List CompanyRecord) ≠ [] ∧
      (extract
        (fun s => if s = "[\x7b\"name\": \"Vision Co\"\x7d]" then
          some (.arr [.obj [("name", .str "Vision Co")]]) else none)
        ⟨true, true, true, some "[\x7b\"name\": \"Vision Co\"\x7d]", none, none, none, none⟩
        [⟨"Company A", none⟩] 5).2 = "vision_json" ∧
      (extract
        (fun s => if s = "[\x7b\"name\": \"Vision Co\"\x7d]" then
          some (.arr [.obj [("name", .str "Vision Co")]]) else none)
        ⟨true, true, true, some "[\x7b\"name\": \"Vision Co\"\x7d]", none, none, none, none⟩
        [⟨"Company A", none⟩] 5).2 ≠ "dom_llm_refine" ∧
      (extract
        (fun s => if s = "[\x7b\"name\": \"Vision Co\"\x7d]" then
          some (.arr [.obj [("name", .str "Vision Co")]]) else none)
        ⟨true, true, true, some "[\x7b\"name\": \"Vision Co\"\x7d]", none, none, none, none⟩
        [⟨"Company A", none⟩] 5).2 ≠ "dom_heuristic" ∧
      (extract
        (fun s => if s = "[\x7b\"name\": \"Vision Co\"\x7d]" then
          some (.arr [.obj [("name", .str "Vision Co")]]) else none)
        ⟨true, true, true, some "[\x7b\"name\": \"Vision Co\"\x7d]", none, none, none, none⟩
        [⟨"Company A", none⟩] 5).1 ≠
      (extractAfterVision
        (fun s => if s = "[\x7b\"name\": \"Vision Co\"\x7d]" then
          some (.arr [.obj [("name", .str "Vision Co")]]) else none)
        ⟨true, true, true, some "[\x7b\"name\": \"Vision Co\"\x7d]", none, none, none, none⟩
        (_dedupe [⟨"Company A", none⟩]) 5).1 := by
  refine ⟨by decide, by decide, by decide, by decide, by decide⟩

/-- Claim C4, amended: the vision stage runs FIRST, not last — whenever a
vision collaborator and a screenshot are present and the vision stage yields
records, `extract` returns those records merged into the deduplicated
heuristic candidates, labelled with the vision source, regardless of the
heuristic candidates. -/
theorem extract_vision_first (loads : String → Option Json) (env : ExtractEnv)
    (candidates : List CompanyRecord) (max_results : Nat)
    (hv : (env.hasVision && env.hasScreenshot) = true)
    (hr : (_extract_with_vision loads env max_results).1 ≠ []) :
    extract loads env candidates max_results =
      ((_merge_records (_dedupe candidates)
          (_extract_with_vision loads env max_results).1).take max_results,
        (_extract_with_vision loads env max_results).2) := by
  have hne : (_extract_with_vision loads env max_results).1.isEmpty = false := by
    cases h : (_extract_with_vision loads env max_results).1 with
    | nil => exact absurd h hr
    | cons a l => rfl
  simp [extract, hv, hne]

/-- Witness for `extract_vision_first` at the concrete vision response
`[{"name": "Vision Co"}]`. -/
theorem extract_vision_first_witness :
    extract
        (fun s => if s = "[\x7b\"name\": \"Vision Co\"\x7d]" then
          some (.arr [.obj [("name", .str "Vision Co")]]) else none)
        ⟨true, true, true, some "[\x7b\"name\": \"Vision Co\"\x7d]", none, none, none, none⟩
        [⟨"Company A", none⟩] 5 =
      ((_merge_records (_dedupe [⟨"Company A", none⟩])
          (_extract_with_vision
            (fun s => if s = "[\x7b\"name\": \"Vision Co\"\x7d]" then
              some (.arr [.obj [("name", .str "Vision Co")]]) else none)
            ⟨true, true, true, some "[\x7b\"name\": \"Vision Co\"\x7d]", none, none, none, none⟩
            5).1).take 5,
        (_extract_with_vision
          (fun s => if s = "[\x7b\"name\": \"Vision Co\"\x7d]" then
            some (.arr [.obj [("name", .str "Vision Co")]]) else none)
          ⟨true, true, true, some "[\x7b\"name\": \"Vision Co\"\x7d]", none, none, none, none⟩
          5).2) :=
  extract_vision_first
    (fun s => if s = "[\x7b\"name\": \"Vision Co\"\x7d]" then
      some (.arr [.obj [("name", .str "Vision Co")]]) else none)
    ⟨true, true, true, some "[\x7b\"name\": \"Vision Co\"\x7d]", none, none, none, none⟩
    [⟨"Company A", none⟩] 5 (by decide) (by decide)

end Extraction

namespace Orchestrator

/-!
The terminal-action continuation logic of `AgentOrchestrator`
(`gtm_agent/gtm_agent/orchestrator.py`, `run` lines 88–97 and
`_next_continuation_action` / `_pagination_followup_action`).  Observation
dicts are modelled as records over the three keys the code reads (`type`,
`is_at_bottom` with `none` for a missing or null key, and
`pagination_candidates`); candidate dicts carry `text` and `href` with `""`
for missing keys, which the code's `or ""` collapses anyway.  The
`visited_pagination` artifact set is the list of its inserted keys.
-/

open Extraction (memStr)

/-- One entry of `pagination_candidates`. -/
structure PagCandidate where
  text : String
  href : String
deriving DecidableEq

/-- The fields of an observation dict read by the continuation logic. -/
structure Observation where
  otype : String
  is_at_bottom : Option Bool
  pagination_candidates : List PagCandidate
deriving DecidableEq

/-- Parameter values appearing in the continuation `ToolAction`s. -/
inductive PVal where
  | s (v : String) : PVal
  | b (v : Bool) : PVal
  | n (v : Nat) : PVal
deriving DecidableEq

/-- The `ToolAction` dataclass. -/
structure ToolAction where
  tool_name : String
  params : List (String × PVal)
  rationale : String
  is_terminal : Bool
deriving DecidableEq

/-- `key = href or text` over the stripped candidate fields. -/
def candKey (c : PagCandidate) : String :=
  if (PyStr.pyStrip c.href).data.isEmpty then PyStr.pyStrip c.text else PyStr.pyStrip c.href

/-- `text or href or "Next"`. -/
def linkTextOf (c : PagCandidate) : String :=
  if !(PyStr.pyStrip c.text).data.isEmpty then PyStr.pyStrip c.text
  else if !(PyStr.pyStrip c.href).data.isEmpty then PyStr.pyStrip c.href
  else "Next"

/-- The `click_link_text` action built for a fresh candidate. -/
def clickAction (c : PagCandidate) : ToolAction :=
  ⟨"click_link_text",
    [("link_text", PVal.s (linkTextOf c)),
     ("exact", PVal.b (!(PyStr.pyStrip c.text).data.isEmpty)),
     ("candidate_key", PVal.s (candKey c)),
     ("wait_after_ms", PVal.n 1500)],
    "Auto paginate using link \x27" ++
      (if (PyStr.pyStrip c.text).data.isEmpty then PyStr.pyStrip c.href
        else PyStr.pyStrip c.text) ++ "\x27",
    false⟩

/-- The candidate loop of `_pagination_followup_action`: skip empty or
already-visited keys, return a click action for the first fresh one. -/
def pagFollowupAux (visited : List String) : List PagCandidate → Option ToolAction
  | [] => none
  | c :: rest =>
    if (candKey c).data.isEmpty || memStr (candKey c) visited then pagFollowupAux visited rest
    else some (clickAction c)

/-- `AgentOrchestrator._pagination_followup_action`. -/
def _pagination_followup_action (visited : List String) (observation : Observation) :
    Option ToolAction :=
  if observation.pagination_candidates.isEmpty then none
  else pagFollowupAux visited observation.pagination_candidates

/-- The `scroll_page` continuation action. -/
def scrollAction : ToolAction :=
  ⟨"scroll_page", [("mode", PVal.s "bottom")], "Auto scroll to reach page bottom", false⟩

/-- `last_observation.get("type") == "page_state" and
last_observation.get("is_at_bottom") is False`. -/
def obsScroll (o : Observation) : Bool :=
  o.otype == "page_state" && o.is_at_bottom == some false

/-- `AgentOrchestrator._next_continuation_action`. -/
def _next_continuation_action (observations : List Observation) (visited : List String) :
    Option ToolAction :=
  match observations.getLast? with
  | none => none
  | some lastObs =>
    if obsScroll lastObs then some scrollAction
    else _pagination_followup_action visited lastObs

/-- Outcome of the `if action.is_terminal` block of `run` (lines 88–97):
either the loop completes, or some action (the planner's own or a scheduled
continuation) is executed. -/
inductive StepDecision where
  | completeRun : StepDecision
  | execute (a : ToolAction) : StepDecision
deriving DecidableEq

/-- Lines 88–97 of `run`: a terminal action is replaced by the continuation
when one exists, and completes the run otherwise; non-terminal actions are
executed unchanged. -/
def decideAction (observations : List Observation) (visited : List String)
    (a : ToolAction) : StepDecision :=
  if a.is_terminal then
    match _next_continuation_action observations visited with
    | none => StepDecision.completeRun
    | some cont => StepDecision.execute cont
  else StepDecision.execute a

/-- The scroll condition holds of the most recent observation. -/
def scrollCond (observations : List Observation) : Bool :=
  ((observations.getLast?).map obsScroll).getD false

/-- The candidate's href-or-text key is nonempty and not yet visited. -/
def freshKey (visited : List String) (c : PagCandidate) : Bool :=
  !(candKey c).data.isEmpty && !(memStr (candKey c) visited)

theorem freshKey_guard {visited : List String} {c : PagCandidate}
    (h : freshKey visited c = true) :
    ((candKey c).data.isEmpty || memStr (candKey c) visited) = false := by
  unfold freshKey at h
  cases he : (candKey c).data.isEmpty with
  | true => rw [he] at h; simp at h
  | false =>
    cases hm : memStr (candKey c) visited with
    | true => rw [hm] at h; simp at h
    | false => rfl

/-- If some candidate is fresh, the candidate loop returns a
`click_link_text` action. -/
theorem pagFollowup_of_fresh (visited : List String) :
    ∀ l : List PagCandidate, (∃ c ∈ l, freshKey visited c = true) →
      ∃ t, pagFollowupAux visited l = some t ∧ t.tool_name = "click_link_text" := by
  intro l
  induction l with
  | nil =>
    intro ⟨c, hc, _⟩
    exact absurd hc (List.not_mem_nil c)
  | cons c rest ih =>
    intro ⟨d, hd, hfresh⟩
    cases hg : ((candKey c).data.isEmpty || memStr (candKey c) visited) with
    | true =>
      have hres : pagFollowupAux visited (c :: rest) = pagFollowupAux visited rest := by
        simp [pagFollowupAux, hg]
      rw [hres]
      apply ih
      rcases List.mem_cons.mp hd with he | htl
      · rw [he] at hfresh
        rw [freshKey_guard hfresh] at hg
        exact Bool.noConfusion hg
      · exact ⟨d, htl, hfresh⟩
    | false =>
      have hres : pagFollowupAux visited (c :: rest) = some (clickAction c) := by
        simp [pagFollowupAux, hg]
      exact ⟨clickAction c, hres, rfl⟩

/-- Claim C10: a terminal planner action does not necessarily stop `run` —
if the latest observation is a `page_state` with `is_at_bottom` false the
action is replaced by `scroll_page`; otherwise, if it lists a pagination
candidate whose (nonempty) href-or-text key is not yet in
`visited_pagination`, it is replaced by a `click_link_text` action; and the
run completes on the terminal action exactly when no continuation exists. -/
theorem run_terminal_continuation (observations : List Observation) (visited : List String)
    (a : ToolAction) (ht : a.is_terminal = true) :
    (scrollCond observations = true →
        decideAction observations visited a = StepDecision.execute scrollAction) ∧
      (scrollCond observations = false →
        ∀ o, observations.getLast? = some o →
        (∃ c ∈ o.pagination_candidates, freshKey visited c = true) →
        ∃ cont, decideAction observations visited a = StepDecision.execute cont ∧
          cont.tool_name = "click_link_text") ∧
      (decideAction observations visited a = StepDecision.completeRun ↔
        _next_continuation_action observations visited = none) := by
  refine ⟨?_, ?_, ?_⟩
  · intro hs
    have hnext : _next_continuation_action observations visited = some scrollAction := by
      unfold _next_continuation_action
      split
      next heq => simp [scrollCond, heq] at hs
      next lastObs heq =>
        have hs' : obsScroll lastObs = true := by
          simp [scrollCond, heq] at hs
          exact hs
        simp [hs']
    simp [decideAction, ht, hnext]
  · intro hs o hlast hex
    obtain ⟨tAct, hpa, htn⟩ := pagFollowup_of_fresh visited o.pagination_candidates hex
    have hnext : _next_continuation_action observations visited = some tAct := by
      unfold _next_continuation_action
      split
      next heq => rw [heq] at hlast; exact Option.noConfusion hlast
      next lastObs heq =>
        have ho : lastObs = o := by
          rw [heq] at hlast
          exact Option.some.inj hlast
        subst ho
        have hs' : obsScroll lastObs = false := by
          simp [scrollCond, heq] at hs
          exact hs
        have hne : lastObs.pagination_candidates.isEmpty = false := by
          obtain ⟨c, hc, _⟩ := hex
          cases hl : lastObs.pagination_candidates with
          | nil => rw [hl] at hc; exact absurd hc (List.not_mem_nil c)
          | cons x xs => rfl
        simp only [hs', Bool.false_eq_true, if_false]
        unfold _pagination_followup_action
        simp only [hne, Bool.false_eq_true, if_false]
        exact hpa
    exact ⟨tAct, by simp [decideAction, ht, hnext], htn⟩
  · unfold decideAction
    rw [ht]
    cases hn : _next_continuation_action observations visited with
    | none => simp
    | some cont => simp

/-- Witness for `run_terminal_continuation`: a terminal action with a
`page_state` observation not at the bottom is replaced by the scroll
continuation. -/
theorem run_terminal_continuation_witness :
    decideAction [⟨"page_state", some false, []⟩] [] ⟨"finish", [], "done", true⟩ =
      StepDecision.execute scrollAction :=
  (run_terminal_continuation [⟨"page_state", some false, []⟩] [] ⟨"finish", [], "done", true⟩
    rfl).1 (by decide)

end Orchestrator
